import Mathlib

/-!
# Weighted trie (`wtrie.h`, `wtrie.cpp`)

A shallow embedding of the weighted 16-ary trie over 256-bit keys and a
verification of its public operations `Add`, `Contains`,
`GetByCumulativeWeight` and `Remove`.

Conventions of the embedding:

* a value of `WeightedTrieNode` is the content of one `WeightedTrieNode*`
  slot: `null`, a leaf node, or a non-leaf node owning its 16 child slots;
* `uint64_t` values are natural numbers, every arithmetic operation of the
  source is followed by an explicit `% 2 ^ 64`;
* `level` is a natural number; `SelectChildFromKey` only depends on
  `level % 64`, so the 32-bit wrap of `unsigned int` cannot be observed
  (`SelectChildFromKey_mod_uint`);
* loops whose termination is not structural carry a fuel argument and
  return `none` when it runs out.
-/

namespace Wtrie

/-! ## Keys -/

/-- Modelled from the spec: the key type `uint256` (`uint256.h` is not part of
the sources). A key is an opaque 32-byte identifier compared by byte
equality; `data` lists the bytes in the order `begin()[0], begin()[1], ...`. -/
structure uint256 where
  data : List Nat
  size_eq : data.length = 32
  byte_lt : ∀ b ∈ data, b < 256
deriving DecidableEq

/-- Byte length of a key: `key.size()`. -/
def uint256.size (_key : uint256) : Nat := 32

/-- Byte access `key.begin()[i]`. -/
def uint256.byte (key : uint256) (i : Nat) : Nat := key.data.getD i 0

/-! ## Node model -/

/-- The constant `WTRIE_LOGLOG_CHILDREN`. -/
abbrev WTRIE_LOGLOG_CHILDREN : Nat := 2

/-- The constant `WTRIE_CHILDREN`, `(1 << (1 << WTRIE_LOGLOG_CHILDREN))`. -/
abbrev WTRIE_CHILDREN : Nat := 1 <<< (1 <<< WTRIE_LOGLOG_CHILDREN)

/-- Modulus of `uint64_t` arithmetic. -/
abbrev UINT64 : Nat := 2 ^ 64

/-- Content of a `WeightedTrieNode*`: `NULL`, a `WeightedTrieLeafNode`
(key, weight) or a `WeightedTrieNonLeafNode` (weight, `child[16]`). -/
inductive WeightedTrieNode where
  | null
  | leaf (key : uint256) (weight : Nat)
  | nonLeaf (weight : Nat) (child : Fin 16 → WeightedTrieNode)

open WeightedTrieNode

/-- The field `weight` of the node a slot points to. The source never reads it
through a `NULL` slot; `0` is the value used for an absent child when the
children of a node are summed. -/
def WeightedTrieNode.weight : WeightedTrieNode → Nat
  | null => 0
  | leaf _ w => w
  | nonLeaf w _ => w

/-- The slot index computed by `WeightedTrieNonLeafNode::SelectChildFromKey`
(the method returns a reference to `child[b]`; the embedding returns `b`). -/
def SelectChildFromKey (key : uint256) (level : Nat) : Fin 16 :=
  let index := level >>> (3 - WTRIE_LOGLOG_CHILDREN)
  let shift := (level &&& (7 >>> WTRIE_LOGLOG_CHILDREN)) <<< WTRIE_LOGLOG_CHILDREN
  let mask := WTRIE_CHILDREN - 1
  ⟨(key.byte (index % key.size) >>> shift) &&& mask,
    Nat.and_lt_two_pow _ (show WTRIE_CHILDREN - 1 < 2 ^ 4 by decide)⟩

/-- A freshly constructed non-leaf node has all child slots `NULL`
(`memset(this->child, 0, ...)`). -/
def emptyChildren : Fin 16 → WeightedTrieNode := fun _ => null

/-- The class `WeightedTrie`: its only field is the `root` slot. -/
structure WeightedTrie where
  root : WeightedTrieNode

/-- The constructor `WeightedTrie() : root(NULL)`. -/
def WeightedTrie.empty : WeightedTrie := ⟨null⟩

/-! ## Operations -/

/-- The loop of `WeightedTrie::Contains`, started at `*current = node`. -/
def ContainsLoop (key : uint256) : Nat → WeightedTrieNode → Bool
  | _, null => false
  | _, leaf lk _ => decide (key = lk)
  | level, nonLeaf _ child =>
      ContainsLoop key (level + 1) (child (SelectChildFromKey key level))

/-- The method `WeightedTrie::Contains`. -/
def WeightedTrie.Contains (t : WeightedTrie) (key : uint256) : Bool :=
  ContainsLoop key 0 t.root

/-- Longest chain of non-leaf nodes below a slot. -/
def WeightedTrieNode.height : WeightedTrieNode → Nat
  | null => 0
  | leaf _ _ => 0
  | nonLeaf _ child => 1 + Finset.univ.sup (fun i => (child i).height)

/-- The loop `while (*current) { ... }` of `WeightedTrie::Add` together with
the final `*current = newNode`, started at `*current = node`; the result is the
new content of that slot. One unit of fuel is spent per iteration of the outer
loop. In an iteration a leaf is first replaced by a non-leaf node of the same
weight holding the leaf in the slot of the leaf's own key (the inner `while`,
which then exits at once); then the non-leaf node's weight grows by `weight`
and the loop moves to the slot selected by `key`. -/
def AddLoop (key : uint256) (weight : Nat) : Nat → Nat → WeightedTrieNode → Option WeightedTrieNode
  | _, _, null => some (leaf key weight)
  | 0, _, _ => none
  | fuel + 1, level, leaf lk lw =>
      let child := Function.update emptyChildren (SelectChildFromKey lk level) (leaf lk lw)
      (AddLoop key weight fuel (level + 1) (child (SelectChildFromKey key level))).map
        (fun c => nonLeaf ((lw + weight) % UINT64)
          (Function.update child (SelectChildFromKey key level) c))
  | fuel + 1, level, nonLeaf nw child =>
      (AddLoop key weight fuel (level + 1) (child (SelectChildFromKey key level))).map
        (fun c => nonLeaf ((nw + weight) % UINT64)
          (Function.update child (SelectChildFromKey key level) c))

/-- The method `WeightedTrie::Add`: the new trie and the returned flag; `none` when the
loop does not finish within its fuel (`Add_result`: this never happens). -/
def WeightedTrie.Add (t : WeightedTrie) (key : uint256) (weight : Nat) :
    Option (WeightedTrie × Bool) :=
  if weight = 0 then some (t, false)
  else if t.Contains key then some (t, false)
  else (AddLoop key weight (t.root.height + 65) 0 t.root).map (fun r => (⟨r⟩, true))

/-- The body of `for (i = 0; i < WTRIE_CHILDREN; i++)` in
`GetByCumulativeWeight`, run over the slot indices `slots` in order. Returns
the slot followed by the `break` (if any) and the final `currentWeight`. -/
def scanLoop (child : Fin 16 → WeightedTrieNode) (cumulativeWeight : Nat) :
    List (Fin 16) → Nat → Option (Fin 16) × Nat
  | [], currentWeight => (none, currentWeight)
  | i :: rest, currentWeight =>
      match child i with
      | null => scanLoop child cumulativeWeight rest currentWeight
      | c =>
          if cumulativeWeight < (currentWeight + c.weight) % UINT64 then (some i, currentWeight)
          else scanLoop child cumulativeWeight rest ((currentWeight + c.weight) % UINT64)

/-- The loop `while (!current->IsLeafNode())` of `GetByCumulativeWeight` and
the final return of the leaf's key. When a pass over the 16 slots ends
without `break`, `current` is unchanged and the loop runs on the same node with
the updated `currentWeight`. `none`: out of fuel (or `current` is `NULL`, which
the source never produces). -/
def GetLoop (cumulativeWeight : Nat) : Nat → WeightedTrieNode → Nat → Option uint256
  | 0, _, _ => none
  | _ + 1, null, _ => none
  | _ + 1, leaf k _, _ => some k
  | fuel + 1, nonLeaf nw child, currentWeight =>
      match scanLoop child cumulativeWeight (List.finRange 16) currentWeight with
      | (some i, cw) => GetLoop cumulativeWeight fuel (child i) cw
      | (none, cw) => GetLoop cumulativeWeight fuel (nonLeaf nw child) cw

/-- The method `WeightedTrie::GetByCumulativeWeight`, run with `fuel` iterations of the
descent loop. `some none` is the `NULL` result, `some (some k)` the key `k`,
`none` means the loop did not finish within `fuel` iterations. -/
def WeightedTrie.GetByCumulativeWeight (fuel : Nat) (t : WeightedTrie)
    (cumulativeWeight : Nat) : Option (Option uint256) :=
  match t.root with
  | null => some none
  | r =>
      if r.weight ≤ cumulativeWeight then some none
      else (GetLoop cumulativeWeight fuel r 0).map some

/-- The function `RemoveRecursive`: the new content of the slot `node` and the
returned `deletedWeight`. -/
def RemoveRecursive (key : uint256) : Nat → WeightedTrieNode → WeightedTrieNode × Nat
  | _, null => (null, 0)
  | _, leaf lk lw => if key = lk then (null, lw) else (leaf lk lw, 0)
  | level, nonLeaf nw child =>
      let r := RemoveRecursive key (level + 1) (child (SelectChildFromKey key level))
      let nw' := (nw + UINT64 - r.2) % UINT64
      if nw' = 0 then (null, r.2)
      else (nonLeaf nw' (Function.update child (SelectChildFromKey key level) r.1), r.2)

/-- The method `WeightedTrie::Remove`. -/
def WeightedTrie.Remove (t : WeightedTrie) (key : uint256) : WeightedTrie × Bool :=
  let r := RemoveRecursive key 0 t.root
  (⟨r.1⟩, decide (r.2 ≠ 0))

/-! ## Abstract content and invariants -/

/-- The stored `(key, weight)` entries below a slot, in trie order (child
slots `0..15` from left to right, recursively). -/
def WeightedTrieNode.entries : WeightedTrieNode → List (uint256 × Nat)
  | null => []
  | leaf k w => [(k, w)]
  | nonLeaf _ child => (List.finRange 16).flatMap (fun i => (child i).entries)

/-- Exact (unbounded) sum of the weights of the leaves below a slot. -/
def WeightedTrieNode.leafTotal : WeightedTrieNode → Nat
  | null => 0
  | leaf _ w => w
  | nonLeaf _ child => ∑ i, (child i).leafTotal

/-- Exact sum of the weights of a list of entries. -/
def totalWeight (l : List (uint256 × Nat)) : Nat := (l.map Prod.snd).sum

/-- The structural invariant of a slot at depth `level`:
leaf weights are non-zero 64-bit values; a non-leaf node's weight is the sum of
its present children's weights modulo `2 ^ 64`; a non-leaf node has a present
child; every key stored below child slot `i` selects slot `i` at this level. -/
def TrieInv : Nat → WeightedTrieNode → Prop
  | _, null => True
  | _, leaf _ w => 1 ≤ w ∧ w < UINT64
  | level, nonLeaf nw child =>
      nw < UINT64 ∧ nw = (∑ i, (child i).weight) % UINT64 ∧ (∃ i, child i ≠ null) ∧
      ∀ i, TrieInv (level + 1) (child i) ∧
        ∀ e ∈ (child i).entries, SelectChildFromKey e.1 level = i

/-! ## Specification of weighted selection -/

/-- Specification of weighted selection, following the spec's words: the
entries are laid out contiguously and in order along an axis, each occupying a
span equal to its weight; the result is the key whose span contains `offset`. -/
def spanLookup : List (uint256 × Nat) → Nat → Option uint256
  | [], _ => none
  | (k, w) :: rest, offset => if offset < w then some k else spanLookup rest (offset - w)

/-! ## Trie order -/

/-- Nibble `n` of a key: nibble `2i` is the low nibble of byte `i`, nibble
`2i+1` the high nibble of byte `i`. -/
def nibble (key : uint256) (n : Nat) : Nat :=
  if n % 2 = 0 then key.byte (n / 2) % 16 else key.byte (n / 2) / 16

/-- Strict lexicographic order of the 64-nibble sequences of two keys. -/
def keyLt (a b : uint256) : Prop :=
  ∃ l, l < 64 ∧ (∀ j, j < l → nibble a j = nibble b j) ∧ nibble a l < nibble b l

instance (a b : uint256) : Decidable (keyLt a b) := by
  unfold keyLt; infer_instance

/-! ## Reachable tries -/

/-- Tries reachable from the empty trie by `Add` and `Remove` calls with
64-bit weights. -/
inductive Reachable : WeightedTrie → Prop
  | empty : Reachable WeightedTrie.empty
  | add {t t' : WeightedTrie} {b : Bool} (key : uint256) (w : Nat) :
      Reachable t → w < UINT64 → t.Add key w = some (t', b) → Reachable t'
  | remove {t : WeightedTrie} (key : uint256) : Reachable t → Reachable (t.Remove key).1

/-- Tries reachable from the empty trie by `Add` and `Remove` calls during
which the exact sum of the stored weights never exceeds `2 ^ 64 - 1`. -/
inductive ReachableExact : WeightedTrie → Prop
  | emptyExact : ReachableExact WeightedTrie.empty
  | addExact {t t' : WeightedTrie} {b : Bool} (key : uint256) (w : Nat) :
      ReachableExact t → w < UINT64 → t.Add key w = some (t', b) →
      t'.root.leafTotal < UINT64 → ReachableExact t'
  | removeExact {t : WeightedTrie} (key : uint256) :
      ReachableExact t → ReachableExact (t.Remove key).1

/-! ## Nodes of a trie -/

/-- Position of a node inside a trie: `Within n m` holds when `n` is `m` or a
descendant of `m`. -/
inductive Within : WeightedTrieNode → WeightedTrieNode → Prop
  | refl (n : WeightedTrieNode) : Within n n
  | child {n : WeightedTrieNode} {nw : Nat} {child : Fin 16 → WeightedTrieNode} (i : Fin 16) :
      Within n (child i) → Within n (nonLeaf nw child)

/-! ## Sample data -/

/-- Sample key with all bytes zero. -/
def keyA : uint256 := ⟨List.replicate 32 0, by decide, by decide⟩

/-- Sample key whose first byte is `1`. -/
def keyB : uint256 := ⟨1 :: List.replicate 31 0, by decide, by decide⟩

/-- Sample key whose first byte is `2`. -/
def keyC : uint256 := ⟨2 :: List.replicate 31 0, by decide, by decide⟩

/-- The trie after `Add(keyA, 10)`. -/
def sampleA : WeightedTrie := ⟨leaf keyA 10⟩

/-- The trie after `Add(keyA, 10)`, `Add(keyB, 10)`. -/
def sampleAB : WeightedTrie :=
  ⟨nonLeaf 20 (Function.update (Function.update emptyChildren 0 (leaf keyA 10)) 1 (leaf keyB 10))⟩

/-- The trie after `Add(keyA, 12)`, `Add(keyB, 100)`, `Add(keyC, 8)`: the
example of the documentation of `GetByCumulativeWeight`. -/
def sampleABC : WeightedTrie :=
  ⟨nonLeaf 120 (Function.update (Function.update (Function.update emptyChildren 0
    (leaf keyA 12)) 1 (leaf keyB 100)) 2 (leaf keyC 8))⟩

/-- The child slots of the root after `Add(keyA, 2^63)`, `Add(keyB, 2^63)`. -/
def wrapChildren : Fin 16 → WeightedTrieNode :=
  Function.update (Function.update emptyChildren 0 (leaf keyA 9223372036854775808)) 1
    (leaf keyB 9223372036854775808)

/-- The trie after `Add(keyA, 2^63)`, `Add(keyB, 2^63)`: the root weight has
wrapped around to `0`. -/
def wrapAB : WeightedTrie := ⟨nonLeaf 0 wrapChildren⟩

/-- Successive `Add` of all entries of a list, from left to right. -/
def addAll : List (uint256 × Nat) → WeightedTrie → Option WeightedTrie
  | [], t => some t
  | (k, w) :: rest, t =>
      match t.Add k w with
      | some (t', _) => addAll rest t'
      | none => none


/-! ## Paths, depths and traces -/

/-- The slot reached from `node` by following the child slots listed in the
path; `null` when the path leaves the trie. -/
def nodeAt : WeightedTrieNode → List (Fin 16) → WeightedTrieNode
  | n, [] => n
  | nonLeaf _ child, i :: p => nodeAt (child i) p
  | null, _ :: _ => null
  | leaf _ _, _ :: _ => null

/-- Depth bound of a slot at depth `level`: leaves are at depth at most 64,
non-leaf nodes at depth at most 63. -/
def DepthInv : Nat → WeightedTrieNode → Prop
  | _, null => True
  | level, leaf _ _ => level ≤ 64
  | level, nonLeaf _ child => level ≤ 63 ∧ ∀ i, DepthInv (level + 1) (child i)

/-- The values of `level` passed to `SelectChildFromKey` by the loop of
`WeightedTrie::Contains`, in call order. -/
def ContainsLevels (key : uint256) : Nat → WeightedTrieNode → List Nat
  | _, null => []
  | _, leaf _ _ => []
  | level, nonLeaf _ child =>
      level :: ContainsLevels key (level + 1) (child (SelectChildFromKey key level))

/-- The values of `level` passed to `SelectChildFromKey` by `RemoveRecursive`,
in call order. -/
def RemoveLevels (key : uint256) : Nat → WeightedTrieNode → List Nat
  | _, null => []
  | _, leaf _ _ => []
  | level, nonLeaf _ child =>
      level :: RemoveLevels key (level + 1) (child (SelectChildFromKey key level))

/-- The values of `level` passed to `SelectChildFromKey` by the loop of
`WeightedTrie::Add` (same fuel convention as `AddLoop`): the push-down of a
leaf calls it once with the leaf's key, every iteration once with `key`. -/
def AddLoopLevels (key : uint256) : Nat → Nat → WeightedTrieNode → List Nat
  | _, _, null => []
  | 0, _, _ => []
  | fuel + 1, level, leaf lk lw =>
      level :: level :: AddLoopLevels key fuel (level + 1)
        (Function.update emptyChildren (SelectChildFromKey lk level) (leaf lk lw)
          (SelectChildFromKey key level))
  | fuel + 1, level, nonLeaf _ child =>
      level :: AddLoopLevels key fuel (level + 1) (child (SelectChildFromKey key level))

/-- The values of `level` passed to `SelectChildFromKey` during a call of
`WeightedTrie::Add`, including those of its call of `Contains`. -/
def AddLevels (t : WeightedTrie) (key : uint256) (weight : Nat) : List Nat :=
  if weight = 0 then []
  else if t.Contains key then ContainsLevels key 0 t.root
  else ContainsLevels key 0 t.root ++ AddLoopLevels key (t.root.height + 65) 0 t.root

/-- Every non-leaf node carries the exact sum of the weights of its present
children. -/
def SumExact : WeightedTrieNode → Prop
  | null => True
  | leaf _ _ => True
  | nonLeaf nw child => nw = ∑ i, (child i).weight ∧ ∀ i, SumExact (child i)

/-- The states `(current, currentWeight)` at the head of the loop
`while (!current->IsLeafNode())` of `GetByCumulativeWeight` on the trie with
root `root`: the loop starts at the root with `currentWeight = 0`; a pass over
the slots that ends with `break` moves to the chosen child, a pass without
`break` stays on the node with the updated `currentWeight`. -/
inductive Visited (cumulativeWeight : Nat) (root : WeightedTrieNode) :
    WeightedTrieNode → Nat → Prop
  | start : Visited cumulativeWeight root root 0
  | descend {nw : Nat} {child : Fin 16 → WeightedTrieNode} {cur cur' : Nat} {i : Fin 16} :
      Visited cumulativeWeight root (nonLeaf nw child) cur →
      scanLoop child cumulativeWeight (List.finRange 16) cur = (some i, cur') →
      Visited cumulativeWeight root (child i) cur'
  | stay {nw : Nat} {child : Fin 16 → WeightedTrieNode} {cur cur' : Nat} :
      Visited cumulativeWeight root (nonLeaf nw child) cur →
      scanLoop child cumulativeWeight (List.finRange 16) cur = (none, cur') →
      Visited cumulativeWeight root (nonLeaf nw child) cur'

/-- The expected shape after `Add(k1, w1)`, `Add(k2, w2)` on the empty trie
when the keys first select different slots `m` levels below `level`: a chain
of `m` non-leaf nodes of weight `w1 + w2` with a single present child, ending
in a non-leaf node of weight `w1 + w2` that holds the two leaves. -/
def collisionChain (k1 : uint256) (w1 : Nat) (k2 : uint256) (w2 : Nat) :
    Nat → Nat → WeightedTrieNode
  | 0, level =>
      nonLeaf (w1 + w2)
        (Function.update (Function.update emptyChildren (SelectChildFromKey k1 level)
          (leaf k1 w1)) (SelectChildFromKey k2 level) (leaf k2 w2))
  | m + 1, level =>
      nonLeaf (w1 + w2)
        (Function.update emptyChildren (SelectChildFromKey k1 level)
          (collisionChain k1 w1 k2 w2 m (level + 1)))

/-- Sample key whose first byte is `0x10`: it shares nibble 0 with `keyA` and
differs from it in nibble 1. -/
def keyD : uint256 := ⟨16 :: List.replicate 31 0, by decide, by decide⟩

/-- The trie after `Add(keyA, 10)`, `Add(keyD, 5)`: the two leaves hang below a
chain of two non-leaf nodes (slot 0 of the root is first set to the pushed-down
leaf and then to the lower non-leaf node). -/
def sampleAD : WeightedTrie :=
  ⟨nonLeaf 15 (Function.update (Function.update emptyChildren 0 (leaf keyA 10)) 0
    (nonLeaf 15 (Function.update (Function.update emptyChildren 0 (leaf keyA 10)) 1
      (leaf keyD 5))))⟩

/-- The trie after `Add(keyA, 10)`, `Add(keyD, 5)`, `Remove(keyD)`: the leaf of
`keyA` hangs below a chain of two single-child non-leaf nodes. -/
def sampleChainA : WeightedTrie := (sampleAD.Remove keyD).1

/-! ## Weights on a search path -/

/-- The non-leaf nodes that `RemoveRecursive` visits for `key`, starting at
`node` with depth `level`, all have a non-zero weight field: the test
`node->weight == 0` fails at each of them when nothing was subtracted. -/
def pathWeightsNonzero (key : uint256) : Nat → WeightedTrieNode → Bool
  | _, null => true
  | _, leaf _ _ => true
  | level, nonLeaf nw child =>
      if nw = 0 then false
      else pathWeightsNonzero key (level + 1) (child (SelectChildFromKey key level))

/-- The trie after `Add(keyA, 2^64-1)`, `Add(keyB, 1)`: the root weight has
wrapped around to `0`. -/
def sampleMaxAB : WeightedTrie :=
  ⟨nonLeaf 0 (Function.update (Function.update emptyChildren 0
    (leaf keyA 18446744073709551615)) 1 (leaf keyB 1))⟩

/-- The trie after `Add(keyA, 2^64-1)`, `Add(keyB, 1)`, `Remove(keyB)`: the
exact total of the stored weights is `2^64-1` again, after a call sequence
during which it was `2^64`. -/
def sampleMaxA : WeightedTrie := (sampleMaxAB.Remove keyB).1

/-- The trie after `Add(keyA, 2^63)`, `Add(keyB, 2^63)`, `Add(keyC, 1)`: the
exact total of the stored weights is `2^64+1` and the root weight is `1`. -/
def wrapABC : WeightedTrie :=
  ⟨nonLeaf 1 (Function.update wrapChildren 2 (leaf keyC 1))⟩

/-! ## Slot selection -/

theorem select_val (key : uint256) (level : Nat) :
    (SelectChildFromKey key level).val
      = (key.byte ((level / 2) % 32) / 2 ^ (4 * (level % 2))) % 16 := by
  have h1 : ∀ x : Nat, x &&& 1 = x % 2 := fun x => Nat.and_pow_two_sub_one_eq_mod x 1
  have h2 : ∀ x : Nat, x &&& 15 = x % 16 := fun x => Nat.and_pow_two_sub_one_eq_mod x 4
  have h3 : (7 : Nat) >>> 2 = 1 := by decide
  have h4 : (1 : Nat) <<< (1 <<< 2) - 1 = 15 := by decide
  simp only [SelectChildFromKey, WTRIE_LOGLOG_CHILDREN, WTRIE_CHILDREN, uint256.size, h3, h4,
    h1, h2, Nat.shiftRight_eq_div_pow, Nat.shiftLeft_eq]
  norm_num
  rw [Nat.mul_comm]

theorem select_add_64 (key : uint256) (level : Nat) :
    SelectChildFromKey key (level + 64) = SelectChildFromKey key level := by
  apply Fin.ext
  rw [select_val, select_val]
  have e1 : (level + 64) / 2 % 32 = level / 2 % 32 := by omega
  have e2 : (level + 64) % 2 = level % 2 := by omega
  rw [e1, e2]

theorem select_mod_64 (key : uint256) (level : Nat) :
    SelectChildFromKey key (level % 64) = SelectChildFromKey key level := by
  induction level using Nat.strong_induction_on with
  | _ n ih =>
    by_cases h : n < 64
    · rw [Nat.mod_eq_of_lt h]
    · have hn : n = (n - 64) + 64 := by omega
      rw [hn, select_add_64, Nat.add_mod_right]
      exact ih (n - 64) (by omega)

/-- The 32-bit wrap of `unsigned int level` is invisible to slot selection. -/
theorem SelectChildFromKey_mod_uint (key : uint256) (level : Nat) :
    SelectChildFromKey key (level % 2 ^ 32) = SelectChildFromKey key level := by
  rw [← select_mod_64 key (level % 2 ^ 32), ← select_mod_64 key level]
  congr 1
  omega

theorem uint256_byte_lt (key : uint256) (i : Nat) : key.byte i < 256 := by
  unfold uint256.byte
  by_cases h : i < key.data.length
  · rw [List.getD_eq_getElem _ _ h]
    exact key.byte_lt _ (List.getElem_mem _)
  · rw [List.getD_eq_default _ _ (by omega)]
    decide

theorem uint256_ext {a b : uint256} (h : ∀ i, i < 32 → a.byte i = b.byte i) : a = b := by
  cases a with
  | mk da sa ba =>
  cases b with
  | mk db sb bb =>
  have : da = db := by
    apply List.ext_getElem (by rw [sa, sb])
    intro i h1 h2
    have := h i (by omega)
    simp only [uint256.byte] at this
    rw [List.getD_eq_getElem _ _ h1, List.getD_eq_getElem _ _ h2] at this
    exact this
  subst this
  rfl

/-- Two keys with the same 64 nibbles are equal. -/
theorem eq_of_select_eq {a b : uint256}
    (h : ∀ l, l < 64 → SelectChildFromKey a l = SelectChildFromKey b l) : a = b := by
  apply uint256_ext
  intro i hi
  have h0 := congrArg Fin.val (h (2 * i) (by omega))
  have h1 := congrArg Fin.val (h (2 * i + 1) (by omega))
  rw [select_val, select_val] at h0 h1
  have e0 : 2 * i / 2 % 32 = i := by omega
  have e1 : (2 * i + 1) / 2 % 32 = i := by omega
  have e2 : 2 * i % 2 = 0 := by omega
  have e3 : (2 * i + 1) % 2 = 1 := by omega
  rw [e0, e2] at h0
  rw [e1, e3] at h1
  have ha := uint256_byte_lt a i
  have hb := uint256_byte_lt b i
  norm_num at h0 h1
  omega

/-- Distinct keys select different slots at some level of every window of 64
consecutive levels. -/
theorem exists_select_ne {a b : uint256} (hab : a ≠ b) (level : Nat) :
    ∃ d, d < 64 ∧ SelectChildFromKey a (level + d) ≠ SelectChildFromKey b (level + d) := by
  by_contra hcon
  push_neg at hcon
  apply hab
  apply eq_of_select_eq
  intro l hl
  -- pick d with (level + d) % 64 = l
  have hd := hcon ((l + 64 - level % 64) % 64) (Nat.mod_lt _ (by decide))
  rw [← select_mod_64 a, ← select_mod_64 b] at hd
  have e : (level + (l + 64 - level % 64) % 64) % 64 = l := by omega
  rw [e] at hd
  exact hd

theorem mem_entries_nonLeaf {nw : Nat} {child : Fin 16 → WeightedTrieNode} {e : uint256 × Nat} :
    e ∈ (nonLeaf nw child).entries ↔ ∃ i, e ∈ (child i).entries := by
  simp [WeightedTrieNode.entries, List.mem_flatMap, List.mem_finRange]

theorem sum_update_add (f : Fin 16 → Nat) (s : Fin 16) (x : Nat) :
    (∑ i, Function.update f s x i) + f s = (∑ i, f i) + x := by
  rw [Finset.sum_update_of_mem (Finset.mem_univ s), Finset.sdiff_singleton_eq_erase,
    ← Finset.add_sum_erase Finset.univ f (Finset.mem_univ s)]
  omega

theorem weight_update (child : Fin 16 → WeightedTrieNode) (s : Fin 16) (c : WeightedTrieNode) :
    (∑ i, (Function.update child s c i).weight) + (child s).weight
      = (∑ i, (child i).weight) + c.weight := by
  have := sum_update_add (fun i => (child i).weight) s c.weight
  simp only [← Function.comp_apply (f := WeightedTrieNode.weight)] at this ⊢
  rw [← Function.comp_update] at this
  exact this

theorem leafTotal_update (child : Fin 16 → WeightedTrieNode) (s : Fin 16) (c : WeightedTrieNode) :
    (∑ i, (Function.update child s c i).leafTotal) + (child s).leafTotal
      = (∑ i, (child i).leafTotal) + c.leafTotal := by
  have := sum_update_add (fun i => (child i).leafTotal) s c.leafTotal
  simp only [← Function.comp_apply (f := WeightedTrieNode.leafTotal)] at this ⊢
  rw [← Function.comp_update] at this
  exact this

theorem sum_emptyChildren_weight : (∑ i, (emptyChildren i).weight) = 0 := by
  simp [emptyChildren, WeightedTrieNode.weight]

theorem sum_emptyChildren_leafTotal : (∑ i, (emptyChildren i).leafTotal) = 0 := by
  simp [emptyChildren, WeightedTrieNode.leafTotal]

/-! ## `Add` always returns -/

theorem addLoop_leaf_isSome (key : uint256) (w : Nat) (lk : uint256) (lw : Nat) :
    ∀ d level fuel, SelectChildFromKey lk (level + d) ≠ SelectChildFromKey key (level + d) →
      d + 2 ≤ fuel → (AddLoop key w fuel level (leaf lk lw)).isSome = true := by
  intro d
  induction d with
  | zero =>
    intro level fuel hne hf
    obtain ⟨f, rfl⟩ : ∃ f, fuel = f + 1 := ⟨fuel - 1, by omega⟩
    have hne' : SelectChildFromKey key level ≠ SelectChildFromKey lk level := fun h => hne h.symm
    simp [AddLoop, Function.update_noteq hne', emptyChildren]
  | succ d ih =>
    intro level fuel hne hf
    obtain ⟨f, rfl⟩ : ∃ f, fuel = f + 1 := ⟨fuel - 1, by omega⟩
    by_cases hs : SelectChildFromKey key level = SelectChildFromKey lk level
    · have hne2 : SelectChildFromKey lk (level + 1 + d) ≠ SelectChildFromKey key (level + 1 + d) := by
        have e : level + 1 + d = level + (d + 1) := by omega
        rw [e]; exact hne
      have hr := ih (level + 1) f hne2 (by omega)
      simp only [AddLoop, Option.isSome_map']
      rw [hs, Function.update_same]
      exact hr
    · simp [AddLoop, Function.update_noteq hs, emptyChildren]

theorem height_child_lt (nw : Nat) (child : Fin 16 → WeightedTrieNode) (i : Fin 16) :
    (child i).height < (nonLeaf nw child).height := by
  have h : (child i).height ≤ Finset.univ.sup (fun i => (child i).height) :=
    Finset.le_sup (f := fun i => (child i).height) (Finset.mem_univ i)
  simp only [WeightedTrieNode.height]
  omega

theorem addLoop_isSome (key : uint256) (w : Nat) :
    ∀ node level fuel, ContainsLoop key level node = false → node.height + 65 ≤ fuel →
      (AddLoop key w fuel level node).isSome = true := by
  intro node
  induction node with
  | null => intro level fuel _ _; simp [AddLoop]
  | leaf lk lw =>
    intro level fuel hc hf
    have hne : lk ≠ key := by
      intro h; subst h; simp [ContainsLoop] at hc
    obtain ⟨d, hd, hsel⟩ := exists_select_ne hne level
    exact addLoop_leaf_isSome key w lk lw d level fuel hsel (by omega)
  | nonLeaf nw child ih =>
    intro level fuel hc hf
    obtain ⟨f, rfl⟩ : ∃ f, fuel = f + 1 := ⟨fuel - 1, by omega⟩
    have hh := height_child_lt nw child (SelectChildFromKey key level)
    simp only [ContainsLoop] at hc
    have hr := ih (SelectChildFromKey key level) (level + 1) f hc (by omega)
    simp only [AddLoop, Option.isSome_map']
    exact hr

/-- The loop of `Add` never runs out of fuel. -/
theorem Add_loop_some (t : WeightedTrie) (key : uint256) (w : Nat)
    (hc : t.Contains key = false) :
    ∃ r, AddLoop key w (t.root.height + 65) 0 t.root = some r := by
  have h := addLoop_isSome key w t.root 0 (t.root.height + 65) hc (le_refl _)
  exact Option.isSome_iff_exists.mp h

/-! ## `Add` preserves the invariant -/

theorem UINT64_eq : UINT64 = 18446744073709551616 := by norm_num [UINT64]

/-- One iteration of the loop of `Add` on a non-leaf node: the node gains
`w`, the selected child slot is replaced by `c`. -/
theorem add_step_spec (key : uint256) (w level nw : Nat) (child : Fin 16 → WeightedTrieNode)
    (c : WeightedTrieNode)
    (hsum : nw % UINT64 = (∑ i, (child i).weight) % UINT64)
    (hch : ∀ i, TrieInv (level + 1) (child i) ∧
      ∀ e ∈ (child i).entries, SelectChildFromKey e.1 level = i)
    (hc : TrieInv (level + 1) c)
    (hcw : c.weight = ((child (SelectChildFromKey key level)).weight + w) % UINT64)
    (hct : c.leafTotal = (child (SelectChildFromKey key level)).leafTotal + w)
    (hcn : c ≠ null)
    (hce : ∀ e, e ∈ c.entries ↔ e = (key, w) ∨ e ∈ (child (SelectChildFromKey key level)).entries) :
    TrieInv level (nonLeaf ((nw + w) % UINT64)
        (Function.update child (SelectChildFromKey key level) c)) ∧
      (nonLeaf ((nw + w) % UINT64)
        (Function.update child (SelectChildFromKey key level) c)).leafTotal
        = (∑ i, (child i).leafTotal) + w ∧
      (∀ e, e ∈ (nonLeaf ((nw + w) % UINT64)
          (Function.update child (SelectChildFromKey key level) c)).entries ↔
        e = (key, w) ∨ ∃ i, e ∈ (child i).entries) := by
  have hM := UINT64_eq
  refine ⟨⟨?_, ?_, ?_, ?_⟩, ?_, ?_⟩
  · exact Nat.mod_lt _ (by rw [hM]; decide)
  · have h := weight_update child (SelectChildFromKey key level) c
    rw [hM] at hsum hcw ⊢
    omega
  · exact ⟨SelectChildFromKey key level, by rw [Function.update_same]; exact hcn⟩
  · intro i
    by_cases hi : i = SelectChildFromKey key level
    · subst hi
      rw [Function.update_same]
      refine ⟨hc, ?_⟩
      intro e he
      rcases (hce e).mp he with h | h
      · rw [h]
      · exact (hch _).2 e h
    · rw [Function.update_noteq hi]
      exact hch i
  · have h := leafTotal_update child (SelectChildFromKey key level) c
    simp only [WeightedTrieNode.leafTotal]
    omega
  · intro e
    rw [mem_entries_nonLeaf]
    constructor
    · rintro ⟨i, hi⟩
      by_cases his : i = SelectChildFromKey key level
      · subst his
        rw [Function.update_same] at hi
        rcases (hce e).mp hi with h | h
        · exact Or.inl h
        · exact Or.inr ⟨_, h⟩
      · rw [Function.update_noteq his] at hi
        exact Or.inr ⟨i, hi⟩
    · rintro (h | ⟨i, hi⟩)
      · exact ⟨SelectChildFromKey key level, by
          rw [Function.update_same]; exact (hce e).mpr (Or.inl h)⟩
      · by_cases his : i = SelectChildFromKey key level
        · subst his
          exact ⟨_, by rw [Function.update_same]; exact (hce e).mpr (Or.inr hi)⟩
        · exact ⟨i, by rw [Function.update_noteq his]; exact hi⟩

/-- The children of the node that replaces a pushed-down leaf. -/
theorem pushDown_children (lk : uint256) (lw level : Nat) (h1 : 1 ≤ lw) (h2 : lw < UINT64) :
    (∑ i, (Function.update emptyChildren (SelectChildFromKey lk level) (leaf lk lw) i).weight) = lw ∧
    (∑ i, (Function.update emptyChildren (SelectChildFromKey lk level) (leaf lk lw) i).leafTotal)
      = lw ∧
    (∀ i, TrieInv (level + 1)
        (Function.update emptyChildren (SelectChildFromKey lk level) (leaf lk lw) i) ∧
      ∀ e ∈ (Function.update emptyChildren (SelectChildFromKey lk level) (leaf lk lw) i).entries,
        SelectChildFromKey e.1 level = i) ∧
    (∀ e, (∃ i, e ∈ (Function.update emptyChildren (SelectChildFromKey lk level)
        (leaf lk lw) i).entries) ↔ e = (lk, lw)) := by
  refine ⟨?_, ?_, ?_, ?_⟩
  · have h := weight_update emptyChildren (SelectChildFromKey lk level) (leaf lk lw)
    rw [sum_emptyChildren_weight] at h
    simpa [emptyChildren, WeightedTrieNode.weight] using h
  · have h := leafTotal_update emptyChildren (SelectChildFromKey lk level) (leaf lk lw)
    rw [sum_emptyChildren_leafTotal] at h
    simpa [emptyChildren, WeightedTrieNode.leafTotal] using h
  · intro i
    by_cases hi : i = SelectChildFromKey lk level
    · subst hi
      rw [Function.update_same]
      refine ⟨⟨h1, h2⟩, ?_⟩
      intro e he
      simp only [WeightedTrieNode.entries, List.mem_singleton] at he
      rw [he]
    · rw [Function.update_noteq hi]
      simp [emptyChildren, TrieInv, WeightedTrieNode.entries]
  · intro e
    constructor
    · rintro ⟨i, hi⟩
      by_cases his : i = SelectChildFromKey lk level
      · subst his
        rw [Function.update_same] at hi
        simpa [WeightedTrieNode.entries] using hi
      · rw [Function.update_noteq his] at hi
        simp [emptyChildren, WeightedTrieNode.entries] at hi
    · intro h
      exact ⟨SelectChildFromKey lk level, by
        rw [Function.update_same]; simp [WeightedTrieNode.entries, h]⟩

theorem addLoop_spec (key : uint256) (w : Nat) (hw1 : 1 ≤ w) (hw2 : w < UINT64) :
    ∀ fuel level node r, TrieInv level node → AddLoop key w fuel level node = some r →
      TrieInv level r ∧ r.weight = (node.weight + w) % UINT64 ∧
      r.leafTotal = node.leafTotal + w ∧ r ≠ null ∧
      (∀ e, e ∈ r.entries ↔ e = (key, w) ∨ e ∈ node.entries) := by
  have hM := UINT64_eq
  intro fuel
  induction fuel with
  | zero =>
    intro level node r hinv hr
    cases node with
    | null =>
      simp only [AddLoop, Option.some.injEq] at hr
      subst hr
      refine ⟨⟨hw1, hw2⟩, ?_, ?_, by simp, ?_⟩
      · simp only [WeightedTrieNode.weight]; rw [hM] at hw2 ⊢; omega
      · simp [WeightedTrieNode.leafTotal]
      · intro e; simp [WeightedTrieNode.entries]
    | leaf lk lw => simp [AddLoop] at hr
    | nonLeaf nw child => simp [AddLoop] at hr
  | succ fuel ih =>
    intro level node r hinv hr
    cases node with
    | null =>
      simp only [AddLoop, Option.some.injEq] at hr
      subst hr
      refine ⟨⟨hw1, hw2⟩, ?_, ?_, by simp, ?_⟩
      · simp only [WeightedTrieNode.weight]; rw [hM] at hw2 ⊢; omega
      · simp [WeightedTrieNode.leafTotal]
      · intro e; simp [WeightedTrieNode.entries]
    | leaf lk lw =>
      simp only [AddLoop, Option.map_eq_some'] at hr
      obtain ⟨c, hc, rfl⟩ := hr
      obtain ⟨p1, p2, p3, p4⟩ := pushDown_children lk lw level hinv.1 hinv.2
      obtain ⟨q1, q2, q3, q4, q5⟩ := ih (level + 1) _ c (p3 _).1 hc
      have hstep := add_step_spec key w level lw _ c (by rw [p1]) p3 q1 q2 q3 q4 q5
      refine ⟨hstep.1, by simp [WeightedTrieNode.weight], ?_, by simp, ?_⟩
      · rw [hstep.2.1, p2]; simp [WeightedTrieNode.leafTotal]
      · intro e
        rw [hstep.2.2 e, p4 e]
        simp [WeightedTrieNode.entries]
    | nonLeaf nw child =>
      simp only [AddLoop, Option.map_eq_some'] at hr
      obtain ⟨c, hc, rfl⟩ := hr
      obtain ⟨i1, i2, i3, i4⟩ := hinv
      obtain ⟨q1, q2, q3, q4, q5⟩ := ih (level + 1) _ c (i4 _).1 hc
      have hstep := add_step_spec key w level nw child c
        (by rw [hM] at i2 ⊢; omega) i4 q1 q2 q3 q4 q5
      refine ⟨hstep.1, by simp [WeightedTrieNode.weight], ?_, by simp, ?_⟩
      · rw [hstep.2.1]; simp [WeightedTrieNode.leafTotal]
      · intro e
        rw [hstep.2.2 e, mem_entries_nonLeaf]

/-! ## Content lemmas -/

theorem totalWeight_nil : totalWeight [] = 0 := rfl

theorem totalWeight_cons (e : uint256 × Nat) (l : List (uint256 × Nat)) :
    totalWeight (e :: l) = e.2 + totalWeight l := by
  simp [totalWeight]

theorem totalWeight_append (l₁ l₂ : List (uint256 × Nat)) :
    totalWeight (l₁ ++ l₂) = totalWeight l₁ + totalWeight l₂ := by
  simp [totalWeight]

theorem totalWeight_flatMap {ι : Type} (l : List ι) (f : ι → List (uint256 × Nat)) :
    totalWeight (l.flatMap f) = (l.map (fun i => totalWeight (f i))).sum := by
  induction l with
  | nil => rfl
  | cons a l ih => simp [List.flatMap_cons, totalWeight_append, ih]

/-- The exact leaf total of a slot is the total weight of its entries. -/
theorem leafTotal_eq_totalWeight : ∀ node : WeightedTrieNode,
    node.leafTotal = totalWeight node.entries := by
  intro node
  induction node with
  | null => rfl
  | leaf k w => simp [WeightedTrieNode.leafTotal, WeightedTrieNode.entries, totalWeight]
  | nonLeaf nw child ih =>
    simp only [WeightedTrieNode.leafTotal, WeightedTrieNode.entries, totalWeight_flatMap]
    rw [Fin.sum_univ_def]
    congr 1
    apply List.map_congr_left
    intro i _
    exact ih i

theorem entries_weight_bounds : ∀ (node : WeightedTrieNode) (level : Nat), TrieInv level node →
    ∀ e ∈ node.entries, 1 ≤ e.2 ∧ e.2 < UINT64 := by
  intro node
  induction node with
  | null => intro level _ e he; simp [WeightedTrieNode.entries] at he
  | leaf k w =>
    intro level h e he
    simp only [WeightedTrieNode.entries, List.mem_singleton] at he
    subst he
    exact h
  | nonLeaf nw child ih =>
    intro level h e he
    obtain ⟨i, hi⟩ := mem_entries_nonLeaf.mp he
    exact ih i (level + 1) (h.2.2.2 i).1 e hi

theorem totalWeight_eq_zero {l : List (uint256 × Nat)} (hl : ∀ e ∈ l, 1 ≤ e.2)
    (h : totalWeight l = 0) : l = [] := by
  cases l with
  | nil => rfl
  | cons e l =>
    have := hl e (List.mem_cons_self _ _)
    rw [totalWeight_cons] at h
    omega

theorem entries_eq_nil_of_leafTotal {node : WeightedTrieNode} {level : Nat}
    (hinv : TrieInv level node) (h : node.leafTotal = 0) : node.entries = [] := by
  apply totalWeight_eq_zero (fun e he => (entries_weight_bounds node level hinv e he).1)
  rw [← leafTotal_eq_totalWeight]; exact h

/-- Every weight field is the leaf total below it modulo `2 ^ 64`. -/
theorem weight_eq_leafTotal_mod : ∀ (node : WeightedTrieNode) (level : Nat), TrieInv level node →
    node.weight = node.leafTotal % UINT64 := by
  intro node
  induction node with
  | null => intro _ _; rfl
  | leaf k w =>
    intro level h
    simp only [WeightedTrieNode.weight, WeightedTrieNode.leafTotal]
    exact (Nat.mod_eq_of_lt h.2).symm
  | nonLeaf nw child ih =>
    intro level h
    simp only [WeightedTrieNode.weight, WeightedTrieNode.leafTotal]
    have e : ∑ i, (child i).weight = ∑ i, (child i).leafTotal % UINT64 :=
      Finset.sum_congr rfl (fun i _ => ih i (level + 1) (h.2.2.2 i).1)
    rw [Finset.sum_nat_mod Finset.univ UINT64 (fun i => (child i).leafTotal), ← e]
    exact h.2.1

theorem weight_eq_leafTotal {node : WeightedTrieNode} {level : Nat} (hinv : TrieInv level node)
    (h : node.leafTotal < UINT64) : node.weight = node.leafTotal := by
  rw [weight_eq_leafTotal_mod node level hinv, Nat.mod_eq_of_lt h]

theorem child_leafTotal_le (nw : Nat) (child : Fin 16 → WeightedTrieNode) (i : Fin 16) :
    (child i).leafTotal ≤ (nonLeaf nw child).leafTotal := by
  simp only [WeightedTrieNode.leafTotal]
  exact Finset.single_le_sum (f := fun i => (child i).leafTotal) (fun _ _ => Nat.zero_le _)
    (Finset.mem_univ i)

theorem entries_ne_nil : ∀ (node : WeightedTrieNode) (level : Nat), TrieInv level node →
    node ≠ null → node.entries ≠ [] := by
  intro node
  induction node with
  | null => intro _ _ h; exact absurd rfl h
  | leaf k w => intro _ _ _; simp [WeightedTrieNode.entries]
  | nonLeaf nw child ih =>
    intro level h _ hnil
    obtain ⟨i, hi⟩ := h.2.2.1
    have := ih i (level + 1) (h.2.2.2 i).1 hi
    apply this
    apply List.eq_nil_iff_forall_not_mem.mpr
    intro e he
    have : e ∈ (nonLeaf nw child).entries := mem_entries_nonLeaf.mpr ⟨i, he⟩
    rw [hnil] at this
    simp at this

/-! ## `Contains` decides membership -/

theorem containsLoop_iff (key : uint256) : ∀ (node : WeightedTrieNode) (level : Nat),
    TrieInv level node →
    (ContainsLoop key level node = true ↔ ∃ w, (key, w) ∈ node.entries) := by
  intro node
  induction node with
  | null => intro level _; simp [ContainsLoop, WeightedTrieNode.entries]
  | leaf k w =>
    intro level _
    simp only [ContainsLoop, WeightedTrieNode.entries, List.mem_singleton, decide_eq_true_eq,
      Prod.mk.injEq]
    constructor
    · intro h; exact ⟨w, h, rfl⟩
    · rintro ⟨_, h, _⟩; exact h
  | nonLeaf nw child ih =>
    intro level h
    simp only [ContainsLoop]
    rw [ih _ (level + 1) (h.2.2.2 _).1]
    constructor
    · rintro ⟨w, hw⟩
      exact ⟨w, mem_entries_nonLeaf.mpr ⟨_, hw⟩⟩
    · rintro ⟨w, hw⟩
      obtain ⟨i, hi⟩ := mem_entries_nonLeaf.mp hw
      have := (h.2.2.2 i).2 _ hi
      simp only at this
      rw [this]
      exact ⟨w, hi⟩

/-! ## `RemoveRecursive` preserves the invariant -/

theorem removeRecursive_nonLeaf (key : uint256) (level nw : Nat)
    (child : Fin 16 → WeightedTrieNode) :
    RemoveRecursive key level (nonLeaf nw child) =
      if (nw + UINT64 - (RemoveRecursive key (level + 1)
            (child (SelectChildFromKey key level))).2) % UINT64 = 0
      then (null, (RemoveRecursive key (level + 1) (child (SelectChildFromKey key level))).2)
      else (nonLeaf ((nw + UINT64 - (RemoveRecursive key (level + 1)
              (child (SelectChildFromKey key level))).2) % UINT64)
            (Function.update child (SelectChildFromKey key level)
              (RemoveRecursive key (level + 1) (child (SelectChildFromKey key level))).1),
          (RemoveRecursive key (level + 1) (child (SelectChildFromKey key level))).2) := by
  simp only [RemoveRecursive]

theorem removeRecursive_inv (key : uint256) : ∀ (node : WeightedTrieNode) (level : Nat),
    TrieInv level node →
    TrieInv level (RemoveRecursive key level node).1 ∧
    (RemoveRecursive key level node).2 < UINT64 ∧
    (RemoveRecursive key level node).1.weight
      = (node.weight + UINT64 - (RemoveRecursive key level node).2) % UINT64 ∧
    (∀ e ∈ (RemoveRecursive key level node).1.entries, e ∈ node.entries ∧ e.1 ≠ key) ∧
    (RemoveRecursive key level node).1.leafTotal ≤ node.leafTotal ∧
    (∀ w, (key, w) ∈ node.entries → (RemoveRecursive key level node).2 = w) ∧
    ((RemoveRecursive key level node).2 ≠ 0 →
      (key, (RemoveRecursive key level node).2) ∈ node.entries) := by
  have hM := UINT64_eq
  intro node
  induction node with
  | null =>
    intro level _
    simp [RemoveRecursive, TrieInv, WeightedTrieNode.weight, WeightedTrieNode.entries]
  | leaf lk lw =>
    intro level h
    by_cases hk : key = lk
    · subst hk
      have h2 := h.2
      simp only [RemoveRecursive, if_true, TrieInv, WeightedTrieNode.weight,
        WeightedTrieNode.entries, WeightedTrieNode.leafTotal]
      refine ⟨trivial, h.2, ?_, by simp, Nat.zero_le _, ?_, by simp⟩
      · rw [hM] at h2 ⊢; omega
      · intro w hw; simp at hw; exact hw.symm
    · have h2 := h.2
      simp only [RemoveRecursive, if_neg hk, WeightedTrieNode.weight,
        WeightedTrieNode.entries, WeightedTrieNode.leafTotal]
      refine ⟨h, by rw [hM]; decide, ?_, ?_, le_refl _, ?_, by simp⟩
      · rw [hM] at h2 ⊢; omega
      · intro e he
        simp only [List.mem_singleton] at he
        subst he
        exact ⟨by simp, fun h' => hk h'.symm⟩
      · intro w hw
        simp only [List.mem_singleton, Prod.mk.injEq] at hw
        exact absurd hw.1 hk
  | nonLeaf nw child ih =>
    intro level h
    obtain ⟨i1, i2, i3, i4⟩ := h
    obtain ⟨q1, q2, q3, q4, q5, q6, q7⟩ :=
      ih (SelectChildFromKey key level) (level + 1) (i4 _).1
    rw [removeRecursive_nonLeaf]
    generalize hr : RemoveRecursive key (level + 1) (child (SelectChildFromKey key level)) = r
      at q1 q2 q3 q4 q5 q6 q7
    have hd : ∀ w, (key, w) ∈ (nonLeaf nw child).entries → r.2 = w := by
      intro w hw
      obtain ⟨i, hi⟩ := mem_entries_nonLeaf.mp hw
      have hsel := (i4 i).2 _ hi
      simp only at hsel
      rw [← hsel] at hi
      exact q6 w hi
    have hd' : r.2 ≠ 0 → (key, r.2) ∈ (nonLeaf nw child).entries :=
      fun h0 => mem_entries_nonLeaf.mpr ⟨_, q7 h0⟩
    by_cases h0 : (nw + UINT64 - r.2) % UINT64 = 0
    · rw [if_pos h0]
      refine ⟨trivial, q2, ?_, by simp [WeightedTrieNode.entries], Nat.zero_le _, hd, hd'⟩
      simp only [WeightedTrieNode.weight]
      exact h0.symm
    · rw [if_neg h0]
      have hwu := weight_update child (SelectChildFromKey key level) r.1
      have hlu := leafTotal_update child (SelectChildFromKey key level) r.1
      have hsum : (nw + UINT64 - r.2) % UINT64
          = (∑ i, (Function.update child (SelectChildFromKey key level) r.1 i).weight)
              % UINT64 := by
        rw [hM] at i2 q2 q3 h0 ⊢
        omega
      refine ⟨⟨Nat.mod_lt _ (by rw [hM]; decide), hsum, ?_, ?_⟩, q2, rfl, ?_, ?_, hd, hd'⟩
      · by_contra hall
        push_neg at hall
        apply h0
        rw [hsum]
        have : (∑ i, (Function.update child (SelectChildFromKey key level) r.1 i).weight) = 0 := by
          apply Finset.sum_eq_zero
          intro i _
          rw [hall i]
          rfl
        rw [this]
        rfl
      · intro i
        by_cases hi : i = SelectChildFromKey key level
        · subst hi
          rw [Function.update_same]
          exact ⟨q1, fun e he => (i4 _).2 e (q4 e he).1⟩
        · rw [Function.update_noteq hi]
          exact i4 i
      · intro e he
        obtain ⟨i, hi⟩ := mem_entries_nonLeaf.mp he
        by_cases his : i = SelectChildFromKey key level
        · subst his
          rw [Function.update_same] at hi
          exact ⟨mem_entries_nonLeaf.mpr ⟨_, (q4 e hi).1⟩, (q4 e hi).2⟩
        · rw [Function.update_noteq his] at hi
          refine ⟨mem_entries_nonLeaf.mpr ⟨i, hi⟩, ?_⟩
          intro hek
          apply his
          have := (i4 i).2 e hi
          rw [hek] at this
          exact this.symm
      · simp only [WeightedTrieNode.leafTotal]
        omega

/-- When the exact leaf total fits in 64 bits, `RemoveRecursive` removes the
entry of `key` and nothing else. -/
theorem removeRecursive_exact (key : uint256) : ∀ (node : WeightedTrieNode) (level : Nat),
    TrieInv level node → node.leafTotal < UINT64 →
    (∀ e, e ∈ (RemoveRecursive key level node).1.entries ↔ e ∈ node.entries ∧ e.1 ≠ key) ∧
    (RemoveRecursive key level node).1.leafTotal + (RemoveRecursive key level node).2
      = node.leafTotal := by
  have hM := UINT64_eq
  intro node
  induction node with
  | null =>
    intro level _ _
    simp [RemoveRecursive, WeightedTrieNode.entries, WeightedTrieNode.leafTotal]
  | leaf lk lw =>
    intro level h _
    by_cases hk : key = lk
    · subst hk
      simp [RemoveRecursive, WeightedTrieNode.entries, WeightedTrieNode.leafTotal]
    · simp only [RemoveRecursive, if_neg hk, WeightedTrieNode.entries,
        WeightedTrieNode.leafTotal, List.mem_singleton, Nat.add_zero, and_true]
      intro e
      constructor
      · intro he; subst he; exact ⟨rfl, fun h' => hk h'.symm⟩
      · intro he; exact he.1
  | nonLeaf nw child ih =>
    intro level h hlt
    have hnode := removeRecursive_inv key (nonLeaf nw child) level h
    have hw := weight_eq_leafTotal h hlt
    obtain ⟨i1, i2, i3, i4⟩ := h
    have hclt := child_leafTotal_le nw child (SelectChildFromKey key level)
    obtain ⟨p1, p2⟩ := ih (SelectChildFromKey key level) (level + 1) (i4 _).1
      (lt_of_le_of_lt hclt hlt)
    obtain ⟨q1, q2, _, _, _, _, _⟩ :=
      removeRecursive_inv key (child (SelectChildFromKey key level)) (level + 1) (i4 _).1
    rw [removeRecursive_nonLeaf] at hnode ⊢
    generalize hr : RemoveRecursive key (level + 1) (child (SelectChildFromKey key level)) = r
      at p1 p2 q1 q2 hnode
    have hlu := leafTotal_update child (SelectChildFromKey key level) r.1
    simp only [WeightedTrieNode.leafTotal, WeightedTrieNode.weight] at hlt hw hclt
    by_cases h0 : (nw + UINT64 - r.2) % UINT64 = 0
    · rw [if_pos h0] at hnode ⊢
      have hz : (∑ i, (Function.update child (SelectChildFromKey key level) r.1 i).leafTotal)
          = 0 := by
        rw [hM] at h0 hlt q2
        omega
      have hzi : ∀ i, (Function.update child (SelectChildFromKey key level) r.1 i).leafTotal
          = 0 := by
        intro i
        exact (Finset.sum_eq_zero_iff.mp hz) i (Finset.mem_univ i)
      refine ⟨?_, ?_⟩
      · intro e
        constructor
        · intro he
          simp [WeightedTrieNode.entries] at he
        · rintro ⟨he, hne⟩
          exfalso
          obtain ⟨i, hi⟩ := mem_entries_nonLeaf.mp he
          by_cases his : i = SelectChildFromKey key level
          · subst his
            have hmem := (p1 e).mpr ⟨hi, hne⟩
            have hz' := hzi (SelectChildFromKey key level)
            rw [Function.update_same] at hz'
            rw [entries_eq_nil_of_leafTotal q1 hz'] at hmem
            simp at hmem
          · have hz' := hzi i
            rw [Function.update_noteq his] at hz'
            rw [entries_eq_nil_of_leafTotal (i4 i).1 hz'] at hi
            simp at hi
      · simp only [WeightedTrieNode.leafTotal]
        omega
    · rw [if_neg h0]
      refine ⟨?_, ?_⟩
      · intro e
        rw [mem_entries_nonLeaf, mem_entries_nonLeaf]
        constructor
        · rintro ⟨i, hi⟩
          by_cases his : i = SelectChildFromKey key level
          · subst his
            rw [Function.update_same] at hi
            exact ⟨⟨_, ((p1 e).mp hi).1⟩, ((p1 e).mp hi).2⟩
          · rw [Function.update_noteq his] at hi
            refine ⟨⟨i, hi⟩, ?_⟩
            intro hek
            apply his
            have := (i4 i).2 e hi
            rw [hek] at this
            exact this.symm
        · rintro ⟨⟨i, hi⟩, hne⟩
          by_cases his : i = SelectChildFromKey key level
          · subst his
            exact ⟨_, by rw [Function.update_same]; exact (p1 e).mpr ⟨hi, hne⟩⟩
          · exact ⟨i, by rw [Function.update_noteq his]; exact hi⟩
      · simp only [WeightedTrieNode.leafTotal]
        omega

/-! ## Weighted selection -/

theorem spanLookup_append (l₁ l₂ : List (uint256 × Nat)) (o : Nat) :
    spanLookup (l₁ ++ l₂) o
      = if o < totalWeight l₁ then spanLookup l₁ o else spanLookup l₂ (o - totalWeight l₁) := by
  induction l₁ generalizing o with
  | nil => simp [totalWeight_nil]
  | cons e l ih =>
    obtain ⟨k, w⟩ := e
    simp only [List.cons_append, spanLookup, totalWeight_cons]
    by_cases h1 : o < w
    · have : o < w + totalWeight l := by omega
      simp [h1, this]
    · by_cases h2 : o - w < totalWeight l
      · have : o < w + totalWeight l := by omega
        simp [h1, h2, this, ih]
      · have : ¬ o < w + totalWeight l := by omega
        have e : o - w - totalWeight l = o - (w + totalWeight l) := by omega
        simp [h1, h2, this, e, ih]

theorem spanLookup_of_le (l : List (uint256 × Nat)) (o : Nat) (h : totalWeight l ≤ o) :
    spanLookup l o = none := by
  induction l generalizing o with
  | nil => rfl
  | cons e l ih =>
    obtain ⟨k, w⟩ := e
    rw [totalWeight_cons] at h
    simp only [spanLookup]
    rw [if_neg (by simp only at h; omega)]
    exact ih _ (by simp only at h; omega)

/-- The key found by `spanLookup` is the key of the entry whose span
contains the offset. -/
theorem spanLookup_decomp (pre post : List (uint256 × Nat)) (k : uint256) (w o : Nat)
    (h1 : totalWeight pre ≤ o) (h2 : o < totalWeight pre + w) :
    spanLookup (pre ++ (k, w) :: post) o = some k := by
  rw [spanLookup_append, if_neg (by omega)]
  simp only [spanLookup]
  rw [if_pos (by omega)]

theorem spanLookup_exists (l : List (uint256 × Nat)) (o : Nat) (h : o < totalWeight l) :
    ∃ pre k w post, l = pre ++ (k, w) :: post ∧ totalWeight pre ≤ o ∧
      o < totalWeight pre + w := by
  induction l generalizing o with
  | nil => simp [totalWeight_nil] at h
  | cons e l ih =>
    obtain ⟨k, w⟩ := e
    rw [totalWeight_cons] at h
    by_cases h1 : o < w
    · exact ⟨[], k, w, l, rfl, by simp [totalWeight_nil], by simpa [totalWeight_nil] using h1⟩
    · obtain ⟨pre, k', w', post, e1, e2, e3⟩ := ih (o - w) (by simp only at h; omega)
      refine ⟨(k, w) :: pre, k', w', post, by rw [e1]; rfl, ?_, ?_⟩
      · rw [totalWeight_cons]; simp only; omega
      · rw [totalWeight_cons]; simp only; omega

theorem spanLookup_mem (l : List (uint256 × Nat)) (o : Nat) (k : uint256)
    (h : spanLookup l o = some k) : ∃ w, (k, w) ∈ l := by
  induction l generalizing o with
  | nil => simp [spanLookup] at h
  | cons e l ih =>
    obtain ⟨k', w'⟩ := e
    simp only [spanLookup] at h
    by_cases h1 : o < w'
    · rw [if_pos h1] at h
      simp only [Option.some.injEq] at h
      exact ⟨w', by rw [h]; exact List.mem_cons_self _ _⟩
    · rw [if_neg h1] at h
      obtain ⟨w, hw⟩ := ih _ h
      exact ⟨w, List.mem_cons_of_mem _ hw⟩

theorem scanLoop_null (child : Fin 16 → WeightedTrieNode) (cw : Nat) (i : Fin 16)
    (rest : List (Fin 16)) (cur : Nat) (h : child i = null) :
    scanLoop child cw (i :: rest) cur = scanLoop child cw rest cur := by
  simp only [scanLoop, h]

theorem scanLoop_present (child : Fin 16 → WeightedTrieNode) (cw : Nat) (i : Fin 16)
    (rest : List (Fin 16)) (cur : Nat) (h : child i ≠ null) :
    scanLoop child cw (i :: rest) cur =
      if cw < (cur + (child i).weight) % UINT64 then (some i, cur)
      else scanLoop child cw rest ((cur + (child i).weight) % UINT64) := by
  cases hc : child i with
  | null => exact absurd hc h
  | leaf k w => simp only [scanLoop, hc]
  | nonLeaf nw ch => simp only [scanLoop, hc]

/-- The scan over the child slots stops at the child whose span contains the
cumulative weight, with `currentWeight` at the start of that span. -/
theorem scanLoop_spec (child : Fin 16 → WeightedTrieNode) (cw level : Nat)
    (hch : ∀ i, TrieInv level (child i)) :
    ∀ (slots : List (Fin 16)) (cur : Nat), cur ≤ cw →
      cw < cur + totalWeight (slots.flatMap (fun i => (child i).entries)) →
      cur + totalWeight (slots.flatMap (fun i => (child i).entries)) < UINT64 →
      ∃ i cur', scanLoop child cw slots cur = (some i, cur') ∧ cur' ≤ cw ∧
        cw < cur' + (child i).leafTotal ∧ cur' + (child i).leafTotal < UINT64 ∧
        spanLookup (slots.flatMap (fun i => (child i).entries)) (cw - cur)
          = spanLookup (child i).entries (cw - cur') := by
  have hM := UINT64_eq
  intro slots
  induction slots with
  | nil =>
    intro cur h1 h2 _
    simp [totalWeight_nil] at h2
    omega
  | cons i rest ih =>
    intro cur h1 h2 h3
    rw [List.flatMap_cons, totalWeight_append, ← leafTotal_eq_totalWeight] at h2 h3
    have hw := weight_eq_leafTotal (hch i) (by omega : (child i).leafTotal < UINT64)
    rw [List.flatMap_cons, spanLookup_append, ← leafTotal_eq_totalWeight]
    by_cases hnull : child i = null
    · rw [scanLoop_null _ _ _ _ _ hnull]
      have hz : (child i).leafTotal = 0 := by rw [hnull]; rfl
      rw [hz] at h2 h3
      obtain ⟨j, cur', e1, e2, e3, e4, e5⟩ := ih cur h1 (by omega) (by omega)
      refine ⟨j, cur', e1, e2, e3, e4, ?_⟩
      rw [hz, if_neg (by omega)]
      exact e5
    · rw [scanLoop_present _ _ _ _ _ hnull, hw]
      have hmod : (cur + (child i).leafTotal) % UINT64 = cur + (child i).leafTotal :=
        Nat.mod_eq_of_lt (by omega)
      rw [hmod]
      by_cases hlt : cw < cur + (child i).leafTotal
      · rw [if_pos hlt]
        refine ⟨i, cur, rfl, h1, hlt, by omega, ?_⟩
        rw [if_pos (by omega)]
      · rw [if_neg hlt]
        obtain ⟨j, cur', e1, e2, e3, e4, e5⟩ :=
          ih (cur + (child i).leafTotal) (by omega) (by omega) (by omega)
        refine ⟨j, cur', e1, e2, e3, e4, ?_⟩
        rw [if_neg (by omega)]
        rw [← e5]
        congr 1
        omega

/-- The descent of `GetByCumulativeWeight` returns the key selected by
`spanLookup` whenever the exact total below the node fits in 64 bits. -/
theorem getLoop_spec (cw : Nat) : ∀ (fuel : Nat) (node : WeightedTrieNode) (level cur : Nat),
    TrieInv level node → node.height < fuel → cur ≤ cw → cw < cur + node.leafTotal →
    cur + node.leafTotal < UINT64 →
    ∃ k, GetLoop cw fuel node cur = some k ∧ spanLookup node.entries (cw - cur) = some k := by
  intro fuel
  induction fuel with
  | zero => intro node level cur _ h; omega
  | succ fuel ih =>
    intro node level cur hinv hh h1 h2 h3
    cases node with
    | null => simp [WeightedTrieNode.leafTotal] at h2; omega
    | leaf k w =>
      simp only [WeightedTrieNode.leafTotal] at h2
      refine ⟨k, by simp [GetLoop], ?_⟩
      simp only [WeightedTrieNode.entries, spanLookup]
      rw [if_pos (by omega)]
    | nonLeaf nw child =>
      have hch : ∀ i, TrieInv (level + 1) (child i) := fun i => (hinv.2.2.2 i).1
      have htot : (nonLeaf nw child).leafTotal
          = totalWeight ((List.finRange 16).flatMap (fun i => (child i).entries)) := by
        rw [leafTotal_eq_totalWeight]; rfl
      rw [htot] at h2 h3
      obtain ⟨i, cur', e1, e2, e3, e4, e5⟩ :=
        scanLoop_spec child cw (level + 1) hch (List.finRange 16) cur h1 h2 h3
      have hlt := height_child_lt nw child i
      obtain ⟨k, hk1, hk2⟩ := ih (child i) (level + 1) cur' (hch i) (by omega) e2 e3 e4
      refine ⟨k, ?_, ?_⟩
      · simp only [GetLoop, e1]
        exact hk1
      · simp only [WeightedTrieNode.entries]
        rw [e5]; exact hk2

/-! ## Trie order of the entries -/

theorem select_eq_nibble (key : uint256) (l : Nat) (h : l < 64) :
    (SelectChildFromKey key l).val = nibble key l := by
  rw [select_val]
  have e : l / 2 % 32 = l / 2 := by omega
  have hb := uint256_byte_lt key (l / 2)
  rw [e]
  unfold nibble
  by_cases h2 : l % 2 = 0
  · rw [if_pos h2, h2]; norm_num
  · have h3 : l % 2 = 1 := by omega
    rw [if_neg h2, h3]
    norm_num
    omega

theorem keyLt_irrefl (a : uint256) : ¬ keyLt a a := by
  rintro ⟨l, _, _, h⟩
  exact Nat.lt_irrefl _ h

/-- Keys that agree on the slots of all levels below `level` and are ordered by
the slot of `level` are ordered lexicographically. -/
theorem keyLt_of_select {a b : uint256} {level : Nat}
    (hpre : ∀ j, j < level → SelectChildFromKey a j = SelectChildFromKey b j)
    (hlt : SelectChildFromKey a level < SelectChildFromKey b level) : keyLt a b := by
  by_cases h : level < 64
  · refine ⟨level, h, ?_, ?_⟩
    · intro j hj
      rw [← select_eq_nibble a j (by omega), ← select_eq_nibble b j (by omega), hpre j hj]
    · rw [← select_eq_nibble a level h, ← select_eq_nibble b level h]
      exact hlt
  · exfalso
    have h1 := hpre (level % 64) (by omega)
    rw [select_mod_64, select_mod_64] at h1
    rw [h1] at hlt
    exact lt_irrefl _ hlt

theorem entries_sorted : ∀ (node : WeightedTrieNode) (level : Nat), TrieInv level node →
    (∀ a ∈ node.entries, ∀ b ∈ node.entries, ∀ j, j < level →
      SelectChildFromKey a.1 j = SelectChildFromKey b.1 j) →
    List.Pairwise (fun a b => keyLt a.1 b.1) node.entries := by
  intro node
  induction node with
  | null => intro _ _ _; simp [WeightedTrieNode.entries]
  | leaf k w => intro _ _ _; simp [WeightedTrieNode.entries]
  | nonLeaf nw child ih =>
    intro level hinv hpre
    simp only [WeightedTrieNode.entries]
    rw [List.pairwise_flatMap]
    have hagree : ∀ i, ∀ a ∈ (child i).entries, ∀ i', ∀ b ∈ (child i').entries, ∀ j, j < level →
        SelectChildFromKey a.1 j = SelectChildFromKey b.1 j := by
      intro i a ha i' b hb j hj
      exact hpre a (mem_entries_nonLeaf.mpr ⟨i, ha⟩) b (mem_entries_nonLeaf.mpr ⟨i', hb⟩) j hj
    refine ⟨?_, ?_⟩
    · intro i _
      apply ih i (level + 1) (hinv.2.2.2 i).1
      intro a ha b hb j hj
      by_cases hjl : j = level
      · subst hjl
        rw [(hinv.2.2.2 i).2 a ha, (hinv.2.2.2 i).2 b hb]
      · exact hagree i a ha i b hb j (by omega)
    · apply List.Pairwise.imp _ (List.pairwise_lt_finRange 16)
      intro i i' hii a ha b hb
      apply keyLt_of_select (hagree i a ha i' b hb)
      rw [(hinv.2.2.2 i).2 a ha, (hinv.2.2.2 i').2 b hb]
      exact hii

theorem root_entries_sorted {node : WeightedTrieNode} (hinv : TrieInv 0 node) :
    List.Pairwise (fun a b => keyLt a.1 b.1) node.entries :=
  entries_sorted node 0 hinv (fun _ _ _ _ j hj => absurd hj (Nat.not_lt_zero j))

theorem root_entries_nodup {node : WeightedTrieNode} (hinv : TrieInv 0 node) :
    node.entries.Nodup := by
  have h := root_entries_sorted hinv
  unfold List.Nodup
  apply List.Pairwise.imp _ h
  intro a b hab heq
  rw [heq] at hab
  exact keyLt_irrefl _ hab

/-! ## Reachable tries satisfy the invariant -/

/-- The two outcomes of `Add`. -/
theorem Add_cases {t t' : WeightedTrie} {key : uint256} {w : Nat} {b : Bool}
    (h : t.Add key w = some (t', b)) :
    (b = false ∧ t' = t ∧ (w = 0 ∨ t.Contains key = true)) ∨
    (b = true ∧ w ≠ 0 ∧ t.Contains key = false ∧
      AddLoop key w (t.root.height + 65) 0 t.root = some t'.root) := by
  unfold WeightedTrie.Add at h
  by_cases hw : w = 0
  · rw [if_pos hw] at h
    simp only [Option.some.injEq, Prod.mk.injEq] at h
    exact Or.inl ⟨h.2.symm, h.1.symm, Or.inl hw⟩
  · rw [if_neg hw] at h
    by_cases hc : t.Contains key = true
    · rw [if_pos hc] at h
      simp only [Option.some.injEq, Prod.mk.injEq] at h
      exact Or.inl ⟨h.2.symm, h.1.symm, Or.inr hc⟩
    · rw [if_neg hc] at h
      simp only [Option.map_eq_some', Prod.mk.injEq] at h
      obtain ⟨r, hr, h1, h2⟩ := h
      refine Or.inr ⟨h2.symm, hw, by simpa using hc, ?_⟩
      rw [← h1]; exact hr

theorem Add_inv {t t' : WeightedTrie} {key : uint256} {w : Nat} {b : Bool}
    (hinv : TrieInv 0 t.root) (hw : w < UINT64) (h : t.Add key w = some (t', b)) :
    TrieInv 0 t'.root := by
  rcases Add_cases h with ⟨_, h1, _⟩ | ⟨_, hw0, _, hl⟩
  · rw [h1]; exact hinv
  · exact (addLoop_spec key w (by omega) hw _ 0 t.root t'.root hinv hl).1

theorem Remove_inv {t : WeightedTrie} (key : uint256) (hinv : TrieInv 0 t.root) :
    TrieInv 0 (t.Remove key).1.root :=
  (removeRecursive_inv key t.root 0 hinv).1

/-- Every reachable trie satisfies the structural invariant. -/
theorem reachable_inv {t : WeightedTrie} (h : Reachable t) : TrieInv 0 t.root := by
  induction h with
  | empty => exact trivial
  | add key w _ hw hadd ih => exact Add_inv ih hw hadd
  | remove key _ ih => exact Remove_inv key ih

theorem reachableExact_reachable {t : WeightedTrie} (h : ReachableExact t) : Reachable t := by
  induction h with
  | emptyExact => exact Reachable.empty
  | addExact key w _ hw hadd _ ih => exact Reachable.add key w ih hw hadd
  | removeExact key _ ih => exact Reachable.remove key ih

theorem reachableExact_inv {t : WeightedTrie} (h : ReachableExact t) : TrieInv 0 t.root :=
  reachable_inv (reachableExact_reachable h)

theorem reachableExact_total_lt {t : WeightedTrie} (h : ReachableExact t) :
    t.root.leafTotal < UINT64 := by
  induction h with
  | emptyExact => simp [WeightedTrie.empty, WeightedTrieNode.leafTotal]
  | addExact key w _ _ _ hlt _ => exact hlt
  | removeExact key ht ih =>
    exact lt_of_le_of_lt (removeRecursive_inv key _ 0 (reachableExact_inv ht)).2.2.2.2.1 ih

/-! ## Top-level facts -/

theorem within_inv {n m : WeightedTrieNode} (h : Within n m) :
    ∀ level, TrieInv level m → ∃ level', TrieInv level' n := by
  induction h with
  | refl => intro level hl; exact ⟨level, hl⟩
  | child i _ ih => intro level hl; exact ih (level + 1) (hl.2.2.2 i).1

theorem within_leafTotal_le {n m : WeightedTrieNode} (h : Within n m) :
    n.leafTotal ≤ m.leafTotal := by
  induction h with
  | refl => exact le_refl _
  | child i _ ih => exact le_trans ih (child_leafTotal_le _ _ i)

theorem Contains_iff {t : WeightedTrie} (hinv : TrieInv 0 t.root) (key : uint256) :
    t.Contains key = true ↔ ∃ w, (key, w) ∈ t.root.entries :=
  containsLoop_iff key t.root 0 hinv

theorem Contains_congr {t t' : WeightedTrie} (hinv : TrieInv 0 t.root)
    (hinv' : TrieInv 0 t'.root) (key : uint256)
    (h : (∃ w, (key, w) ∈ t'.root.entries) ↔ ∃ w, (key, w) ∈ t.root.entries) :
    t'.Contains key = t.Contains key := by
  have h1 := Contains_iff hinv key
  have h2 := Contains_iff hinv' key
  cases hc : t.Contains key <;> cases hc' : t'.Contains key <;> simp_all

/-- Removing a key that is not found changes nothing when no weight field is
zero, in particular when the exact leaf total fits in 64 bits. -/
theorem removeRecursive_noop (key : uint256) : ∀ (node : WeightedTrieNode) (level : Nat),
    TrieInv level node → node.leafTotal < UINT64 → ContainsLoop key level node = false →
    RemoveRecursive key level node = (node, 0) := by
  have hM := UINT64_eq
  intro node
  induction node with
  | null => intro _ _ _ _; rfl
  | leaf lk lw =>
    intro level _ _ hc
    have hk : key ≠ lk := by
      intro h; subst h; simp [ContainsLoop] at hc
    simp only [RemoveRecursive, if_neg hk]
  | nonLeaf nw child ih =>
    intro level hinv hlt hc
    simp only [ContainsLoop] at hc
    have hclt := child_leafTotal_le nw child (SelectChildFromKey key level)
    have hr := ih (SelectChildFromKey key level) (level + 1) (hinv.2.2.2 _).1
      (lt_of_le_of_lt hclt hlt) hc
    have hw := weight_eq_leafTotal hinv hlt
    have hne : (nonLeaf nw child).leafTotal ≠ 0 := by
      intro h0
      exact entries_ne_nil _ level hinv (by simp) (entries_eq_nil_of_leafTotal hinv h0)
    have h1 := hinv.1
    simp only [WeightedTrieNode.weight] at hw
    rw [removeRecursive_nonLeaf, hr]
    have e : (nw + UINT64 - 0) % UINT64 = nw := by
      rw [hM] at h1 ⊢; omega
    simp only [e]
    rw [if_neg (by rw [hw]; exact hne), Function.update_eq_self]

/-- Removing a key that is not found subtracts nothing, and it leaves the slot
as it was exactly when no non-leaf node on the search path has weight zero. -/
theorem removeRecursive_absent (key : uint256) : ∀ (node : WeightedTrieNode) (level : Nat),
    TrieInv level node → ContainsLoop key level node = false →
    (RemoveRecursive key level node).2 = 0 ∧
    ((RemoveRecursive key level node).1 = node ↔ pathWeightsNonzero key level node = true) := by
  have hM := UINT64_eq
  intro node
  induction node with
  | null => intro _ _ _; simp [RemoveRecursive, pathWeightsNonzero]
  | leaf lk lw =>
    intro level _ hc
    have hk : key ≠ lk := by
      intro h; subst h; simp [ContainsLoop] at hc
    simp [RemoveRecursive, pathWeightsNonzero, if_neg hk]
  | nonLeaf nw child ih =>
    intro level hinv hc
    simp only [ContainsLoop] at hc
    have hr := ih (SelectChildFromKey key level) (level + 1) (hinv.2.2.2 _).1 hc
    have h1 := hinv.1
    have e : (nw + UINT64 - 0) % UINT64 = nw := by
      rw [hM] at h1 ⊢; omega
    rw [removeRecursive_nonLeaf, hr.1]
    simp only [e, pathWeightsNonzero]
    by_cases h0 : nw = 0
    · simp [h0]
    · simp only [if_neg h0, true_and]
      rw [← hr.2]
      constructor
      · intro h
        have h' := (WeightedTrieNode.nonLeaf.inj h).2
        exact Function.update_eq_self_iff.mp h'
      · intro h
        rw [h, Function.update_eq_self]

/-- With enough fuel and an exact leaf total below `2 ^ 64`,
`GetByCumulativeWeight` computes `spanLookup` on the entries in trie order. -/
theorem GetByCumulativeWeight_eq {t : WeightedTrie} (hinv : TrieInv 0 t.root)
    (hlt : t.root.leafTotal < UINT64) (fuel offset : Nat) (hf : t.root.height < fuel) :
    t.GetByCumulativeWeight fuel offset = some (spanLookup t.root.entries offset) := by
  have hw := weight_eq_leafTotal hinv hlt
  obtain ⟨root⟩ := t
  simp only at hinv hlt hf hw
  cases root with
  | null => simp [WeightedTrie.GetByCumulativeWeight, WeightedTrieNode.entries, spanLookup]
  | leaf k w =>
    simp only [WeightedTrie.GetByCumulativeWeight]
    by_cases h : (leaf k w).weight ≤ offset
    · rw [if_pos h, spanLookup_of_le]
      rw [← leafTotal_eq_totalWeight, ← hw]; exact h
    · rw [if_neg h]
      obtain ⟨k', h1, h2⟩ := getLoop_spec offset fuel (leaf k w) 0 0 hinv hf (Nat.zero_le _)
        (by rw [← hw]; omega) (by omega)
      rw [h1]
      simp only [Nat.sub_zero] at h2
      rw [h2]; rfl
  | nonLeaf nw child =>
    simp only [WeightedTrie.GetByCumulativeWeight]
    by_cases h : (nonLeaf nw child).weight ≤ offset
    · rw [if_pos h, spanLookup_of_le]
      rw [← leafTotal_eq_totalWeight, ← hw]; exact h
    · rw [if_neg h]
      obtain ⟨k', h1, h2⟩ := getLoop_spec offset fuel (nonLeaf nw child) 0 0 hinv hf
        (Nat.zero_le _) (by rw [← hw]; omega) (by omega)
      rw [h1]
      simp only [Nat.sub_zero] at h2
      rw [h2]; rfl

/-- A successful `Add` stores exactly one more entry. -/
theorem Add_true_spec {t t' : WeightedTrie} {key : uint256} {w : Nat}
    (hinv : TrieInv 0 t.root) (hw : w < UINT64) (h : t.Add key w = some (t', true)) :
    TrieInv 0 t'.root ∧ t'.root.weight = (t.root.weight + w) % UINT64 ∧
    t'.root.leafTotal = t.root.leafTotal + w ∧ t'.root ≠ null ∧
    (∀ e, e ∈ t'.root.entries ↔ e = (key, w) ∨ e ∈ t.root.entries) := by
  rcases Add_cases h with ⟨hb, _⟩ | ⟨_, hw0, _, hl⟩
  · exact absurd hb (by simp)
  · exact addLoop_spec key w (by omega) hw _ 0 t.root t'.root hinv hl

/-- The call `Add` returns a result, and the flag is true exactly for a non-zero weight
and a key that `Contains` does not find. -/
theorem Add_result (t : WeightedTrie) (key : uint256) (w : Nat) :
    ∃ t', t.Add key w = some (t', decide (w ≠ 0 ∧ t.Contains key = false)) := by
  unfold WeightedTrie.Add
  by_cases hw : w = 0
  · exact ⟨t, by simp [hw]⟩
  · by_cases hc : t.Contains key = true
    · exact ⟨t, by simp [hw, hc]⟩
    · have hc' : t.Contains key = false := by simpa using hc
      obtain ⟨r, hr⟩ := Add_loop_some t key w hc'
      exact ⟨⟨r⟩, by simp [hw, hc', hr]⟩

theorem sampleA_add : WeightedTrie.empty.Add keyA 10 = some (sampleA, true) := by rfl

theorem sampleAB_add : sampleA.Add keyB 10 = some (sampleAB, true) := by rfl

theorem sampleA_reachableExact : ReachableExact sampleA :=
  ReachableExact.addExact keyA 10 ReachableExact.emptyExact (by decide) sampleA_add (by decide)

theorem sampleAB_reachableExact : ReachableExact sampleAB :=
  ReachableExact.addExact keyB 10 sampleA_reachableExact (by decide) sampleAB_add (by decide)

theorem sampleA12_reachableExact : ReachableExact ⟨leaf keyA 12⟩ :=
  ReachableExact.addExact keyA 12 ReachableExact.emptyExact (by decide)
    (show WeightedTrie.empty.Add keyA 12 = some (⟨leaf keyA 12⟩, true) by rfl) (by decide)

theorem sampleAB112_reachableExact : ReachableExact
    ⟨nonLeaf 112 (Function.update (Function.update emptyChildren 0 (leaf keyA 12)) 1
      (leaf keyB 100))⟩ :=
  ReachableExact.addExact keyB 100 sampleA12_reachableExact (by decide)
    (show (WeightedTrie.mk (leaf keyA 12)).Add keyB 100 = some (_, true) by rfl) (by decide)

theorem sampleABC_reachableExact : ReachableExact sampleABC :=
  ReachableExact.addExact keyC 8 sampleAB112_reachableExact (by decide)
    (show WeightedTrie.Add _ keyC 8 = some (sampleABC, true) by rfl) (by decide)

theorem wrapA_reachable : Reachable ⟨leaf keyA 9223372036854775808⟩ :=
  Reachable.add keyA 9223372036854775808 Reachable.empty (by decide)
    (show WeightedTrie.empty.Add keyA 9223372036854775808
      = some (⟨leaf keyA 9223372036854775808⟩, true) by rfl)

theorem wrapAB_reachable : Reachable wrapAB :=
  Reachable.add keyB 9223372036854775808 wrapA_reachable (by decide)
    (show (WeightedTrie.mk (leaf keyA 9223372036854775808)).Add keyB 9223372036854775808
      = some (wrapAB, true) by rfl)

theorem sampleMaxAB_reachable : Reachable sampleMaxAB :=
  Reachable.add keyB 1
    (Reachable.add keyA 18446744073709551615 Reachable.empty (by decide)
      (show WeightedTrie.empty.Add keyA 18446744073709551615
        = some (⟨leaf keyA 18446744073709551615⟩, true) by rfl))
    (by decide)
    (show (WeightedTrie.mk (leaf keyA 18446744073709551615)).Add keyB 1
      = some (sampleMaxAB, true) by rfl)

theorem sampleMaxA_reachable : Reachable sampleMaxA :=
  Reachable.remove keyB sampleMaxAB_reachable

theorem wrapABC_reachable : Reachable wrapABC :=
  Reachable.add keyC 1 wrapAB_reachable (by decide)
    (show wrapAB.Add keyC 1 = some (wrapABC, true) by rfl)

theorem addAll_spec : ∀ (kws : List (uint256 × Nat)) (t : WeightedTrie), TrieInv 0 t.root →
    (kws.map Prod.fst).Nodup → (∀ e ∈ kws, ∀ w, (e.1, w) ∉ t.root.entries) →
    (∀ e ∈ kws, 1 ≤ e.2) → t.root.leafTotal + totalWeight kws < UINT64 →
    ∃ t', addAll kws t = some t' ∧ TrieInv 0 t'.root ∧
      (∀ e, e ∈ t'.root.entries ↔ e ∈ kws ∨ e ∈ t.root.entries) ∧
      t'.root.leafTotal = t.root.leafTotal + totalWeight kws := by
  intro kws
  induction kws with
  | nil =>
    intro t hinv _ _ _ _
    exact ⟨t, rfl, hinv, by simp, by simp [totalWeight_nil]⟩
  | cons e rest ih =>
    intro t hinv hnd hdis hw hsum
    obtain ⟨k, w⟩ := e
    rw [totalWeight_cons] at hsum
    simp only at hsum
    have hw1 : 1 ≤ w := hw (k, w) (List.mem_cons_self _ _)
    have hc : t.Contains k = false := by
      cases hcc : t.Contains k with
      | false => rfl
      | true =>
        obtain ⟨w', hw'⟩ := (Contains_iff hinv k).mp hcc
        exact absurd hw' (hdis (k, w) (List.mem_cons_self _ _) w')
    obtain ⟨t1, ht1⟩ := Add_result t k w
    have hflag : decide (w ≠ 0 ∧ t.Contains k = false) = true := by
      simp [hc]; omega
    rw [hflag] at ht1
    obtain ⟨a1, _, a3, _, a5⟩ := Add_true_spec hinv (by omega) ht1
    simp only [List.map_cons, List.nodup_cons] at hnd
    obtain ⟨t', b1, b2, b3, b4⟩ := ih t1 a1 hnd.2
      (by
        intro e he w' hmem
        rcases (a5 _).mp hmem with h | h
        · simp only [Prod.mk.injEq] at h
          apply hnd.1
          rw [← h.1]
          exact List.mem_map_of_mem _ he
        · exact hdis e (List.mem_cons_of_mem _ he) w' h)
      (fun e he => hw e (List.mem_cons_of_mem _ he))
      (by rw [a3]; omega)
    refine ⟨t', by simp only [addAll, ht1]; exact b1, b2, ?_, ?_⟩
    · intro e
      rw [b3 e, a5 e, List.mem_cons]
      tauto
    · rw [b4, a3, totalWeight_cons]
      simp only
      omega

/-! ## The claims -/

/-- C1: `Add(k, w)` returns a result on every trie (in particular on every
trie reachable from the empty one), and the returned flag is true if and only
if `w != 0` and `Contains(k)` was false before the call. -/
theorem C1_add_returns_true_iff (t : WeightedTrie) (key : uint256) (w : Nat) :
    ∃ t' b, t.Add key w = some (t', b) ∧ (b = true ↔ (w ≠ 0 ∧ t.Contains key = false)) := by
  obtain ⟨t', h⟩ := Add_result t key w
  exact ⟨t', _, h, by simp⟩

/-- C2: on a reachable trie, adding a key that is not stored with a weight
`w >= 1` returns true, makes `Contains` of that key true and leaves `Contains`
of every other key unchanged. -/
theorem C2_add_contains (t : WeightedTrie) (h : Reachable t) (key : uint256) (w : Nat)
    (hk : t.Contains key = false) (hw1 : 1 ≤ w) (hw2 : w < UINT64) :
    ∃ t', t.Add key w = some (t', true) ∧ t'.Contains key = true ∧
      ∀ k', k' ≠ key → t'.Contains k' = t.Contains k' := by
  obtain ⟨t', ht'⟩ := Add_result t key w
  have hflag : decide (w ≠ 0 ∧ t.Contains key = false) = true := by
    simp [hk]; omega
  rw [hflag] at ht'
  obtain ⟨a1, _, _, _, a5⟩ := Add_true_spec (reachable_inv h) hw2 ht'
  refine ⟨t', ht', ?_, ?_⟩
  · exact (Contains_iff a1 key).mpr ⟨w, (a5 _).mpr (Or.inl rfl)⟩
  · intro k' hne
    apply Contains_congr (reachable_inv h) a1
    constructor
    · rintro ⟨w', hw'⟩
      rcases (a5 _).mp hw' with h1 | h1
      · simp only [Prod.mk.injEq] at h1
        exact absurd h1.1 hne
      · exact ⟨w', h1⟩
    · rintro ⟨w', hw'⟩
      exact ⟨w', (a5 _).mpr (Or.inr hw')⟩

theorem C2_add_contains_witness :
    ∃ t', sampleA.Add keyB 10 = some (t', true) ∧ t'.Contains keyB = true ∧
      ∀ k', k' ≠ keyB → t'.Contains k' = sampleA.Contains k' :=
  C2_add_contains sampleA (reachableExact_reachable sampleA_reachableExact) keyB 10 (by decide) (by decide)
    (by decide)

/-- C3: on a trie reached without the exact total weight ever exceeding
`2^64-1`, removing a stored key `k` of weight `w` returns true; afterwards
`Contains(k)` is false, `Contains` of every other key is unchanged, the root
weight has decreased by exactly `w`, and the root is absent exactly when `k` was
the only stored key. -/
theorem C3_remove_stored (t : WeightedTrie) (h : ReachableExact t) (k : uint256) (w : Nat)
    (hs : (k, w) ∈ t.root.entries) :
    (t.Remove k).2 = true ∧ (t.Remove k).1.Contains k = false ∧
    (∀ k', k' ≠ k → (t.Remove k).1.Contains k' = t.Contains k') ∧
    (t.Remove k).1.root.weight + w = t.root.weight ∧
    ((t.Remove k).1.root = null ↔ ∀ e ∈ t.root.entries, e = (k, w)) := by
  have hinv := (reachableExact_inv h)
  have hlt := (reachableExact_total_lt h)
  obtain ⟨q1, q2, _, q4, q5, q6, _⟩ := removeRecursive_inv k t.root 0 hinv
  obtain ⟨p1, p2⟩ := removeRecursive_exact k t.root 0 hinv hlt
  have hd : (RemoveRecursive k 0 t.root).2 = w := q6 w hs
  have hw1 := (entries_weight_bounds t.root 0 hinv _ hs).1
  simp only at hw1
  have hinv' : TrieInv 0 (t.Remove k).1.root := q1
  refine ⟨?_, ?_, ?_, ?_, ?_⟩
  · simp only [WeightedTrie.Remove, hd, decide_eq_true_eq]
    omega
  · cases hc : (t.Remove k).1.Contains k with
    | false => rfl
    | true =>
      obtain ⟨w', hw'⟩ := (Contains_iff hinv' k).mp hc
      exact absurd rfl (q4 _ hw').2
  · intro k' hne
    apply Contains_congr hinv hinv'
    constructor
    · rintro ⟨w', hw'⟩
      exact ⟨w', (q4 _ hw').1⟩
    · rintro ⟨w', hw'⟩
      exact ⟨w', (p1 _).mpr ⟨hw', hne⟩⟩
  · have e1 : (t.Remove k).1.root.weight = (RemoveRecursive k 0 t.root).1.leafTotal :=
      weight_eq_leafTotal q1 (lt_of_le_of_lt q5 hlt)
    rw [e1, weight_eq_leafTotal hinv hlt, ← p2, hd]
  · constructor
    · intro hnull e he
      have hek : e.1 = k := by
        by_contra hne
        have := (p1 e).mpr ⟨he, hne⟩
        have hnull' : (RemoveRecursive k 0 t.root).1 = null := hnull
        rw [hnull'] at this
        simp [WeightedTrieNode.entries] at this
      have he' : (k, e.2) ∈ t.root.entries := by rw [← hek]; exact he
      have := q6 e.2 he'
      rw [hd] at this
      exact Prod.ext hek this.symm
    · intro hall
      by_contra hne
      apply entries_ne_nil _ 0 hinv' hne
      apply List.eq_nil_iff_forall_not_mem.mpr
      intro e he
      have := q4 e he
      exact this.2 (by rw [hall e this.1])

theorem C3_remove_stored_witness :
    (sampleAB.Remove keyA).2 = true ∧ (sampleAB.Remove keyA).1.Contains keyA = false ∧
    (∀ k', k' ≠ keyA → (sampleAB.Remove keyA).1.Contains k' = sampleAB.Contains k') ∧
    (sampleAB.Remove keyA).1.root.weight + 10 = sampleAB.root.weight ∧
    ((sampleAB.Remove keyA).1.root = null ↔ ∀ e ∈ sampleAB.root.entries, e = (keyA, 10)) :=
  C3_remove_stored sampleAB sampleAB_reachableExact keyA 10 (by decide)

/-- C4 fails as stated: after `Add(keyA, 2^63)` and `Add(keyB, 2^63)` the root
weight has wrapped to `0`; `Remove(keyC)` of the absent `keyC` returns false but
deletes the root, so `Contains(keyA)` changes from true to false. -/
theorem C4_counterexample :
    Reachable wrapAB ∧ wrapAB.Contains keyC = false ∧ (wrapAB.Remove keyC).2 = false ∧
    (wrapAB.Remove keyC).1.root = null ∧
    wrapAB.Contains keyA = true ∧ (wrapAB.Remove keyC).1.Contains keyA = false :=
  ⟨wrapAB_reachable, by decide, by decide, by rfl, by decide, by decide⟩

/-- C4 (amended): on every trie reachable from the empty trie by `Add` and
`Remove` calls, `Remove(k)` of a key that is not stored returns false; it leaves
the trie exactly as it was (no node deleted, no weight changed, no slot cleared,
so every later answer is the same as before the call) exactly when no non-leaf
node on the search path of `k` has a weight field of `0`, and that is the case
whenever the exact sum of the weights stored now is at most `2^64-1`, whatever
the sum was earlier in the call sequence. -/
theorem C4_remove_absent_noop (t : WeightedTrie) (h : Reachable t) (k : uint256)
    (hk : t.Contains k = false) :
    (t.Remove k).2 = false ∧
    (t.Remove k = (t, false) ↔ pathWeightsNonzero k 0 t.root = true) ∧
    (t.root.leafTotal < UINT64 → t.Remove k = (t, false)) := by
  have ha := removeRecursive_absent k t.root 0 (reachable_inv h) hk
  refine ⟨?_, ?_, ?_⟩
  · simp only [WeightedTrie.Remove, ha.1]
    simp
  · rw [← ha.2]
    simp only [WeightedTrie.Remove, ha.1]
    constructor
    · intro he
      have h1 := congrArg (fun p => p.1.root) he
      exact h1
    · intro he
      rw [he]
      simp
  · intro hlt
    have hr := removeRecursive_noop k t.root 0 (reachable_inv h) hlt hk
    simp only [WeightedTrie.Remove, hr]
    simp

theorem C4_remove_absent_noop_witness :
    (Reachable sampleMaxA ∧ sampleMaxA.Contains keyC = false ∧
      sampleMaxA.root.leafTotal < UINT64 ∧ sampleMaxA.Remove keyC = (sampleMaxA, false)) ∧
    (Reachable wrapABC ∧ wrapABC.Contains keyD = false ∧
      pathWeightsNonzero keyD 0 wrapABC.root = true ∧
      wrapABC.Remove keyD = (wrapABC, false)) :=
  ⟨⟨sampleMaxA_reachable, by decide, by decide,
    (C4_remove_absent_noop sampleMaxA sampleMaxA_reachable keyC (by decide)).2.2 (by decide)⟩,
   ⟨wrapABC_reachable, by decide, by decide,
    (C4_remove_absent_noop wrapABC wrapABC_reachable keyD (by decide)).2.1.mpr (by decide)⟩⟩

/-- C5: on a trie reached without the exact total weight ever exceeding
`2^64-1`, the stored entries listed in trie order are in strictly ascending
lexicographic order of their 64-nibble sequences, they are exactly the keys
found by `Contains`, every offset below the total weight lies in the span of an
entry, and `GetByCumulativeWeight(offset)` returns the key of every entry `e`
with (sum of the weights before `e`) <= offset < (that sum + weight of `e`). -/
theorem C5_get_by_spans (t : WeightedTrie) (h : ReachableExact t) :
    List.Pairwise (fun a b => keyLt a.1 b.1) t.root.entries ∧
    (∀ k, t.Contains k = true ↔ ∃ w, (k, w) ∈ t.root.entries) ∧
    (∀ offset, offset < totalWeight t.root.entries →
      ∃ pre k w post, t.root.entries = pre ++ (k, w) :: post ∧
        totalWeight pre ≤ offset ∧ offset < totalWeight pre + w) ∧
    (∀ pre k w post offset fuel, t.root.entries = pre ++ (k, w) :: post →
      totalWeight pre ≤ offset → offset < totalWeight pre + w → t.root.height < fuel →
      t.GetByCumulativeWeight fuel offset = some (some k)) := by
  refine ⟨root_entries_sorted (reachableExact_inv h), Contains_iff (reachableExact_inv h), ?_, ?_⟩
  · intro offset ho
    exact spanLookup_exists _ _ ho
  · intro pre k w post offset fuel he h1 h2 hf
    rw [GetByCumulativeWeight_eq (reachableExact_inv h) (reachableExact_total_lt h) fuel offset hf, he,
      spanLookup_decomp pre post k w offset h1 h2]

theorem C5_get_by_spans_witness :
    sampleABC.GetByCumulativeWeight 2 11 = some (some keyA) ∧
    sampleABC.GetByCumulativeWeight 2 111 = some (some keyB) ∧
    sampleABC.GetByCumulativeWeight 2 119 = some (some keyC) :=
  ⟨(C5_get_by_spans sampleABC sampleABC_reachableExact).2.2.2 [] keyA 12
      [(keyB, 100), (keyC, 8)] 11 2 (by decide) (by decide) (by decide) (by decide),
    (C5_get_by_spans sampleABC sampleABC_reachableExact).2.2.2 [(keyA, 12)] keyB 100
      [(keyC, 8)] 111 2 (by decide) (by decide) (by decide) (by decide),
    (C5_get_by_spans sampleABC sampleABC_reachableExact).2.2.2 [(keyA, 12), (keyB, 100)] keyC 8
      [] 119 2 (by decide) (by decide) (by decide) (by decide)⟩

/-- C6: inserting distinct keys `k1..kn` with weights `w1..wn` (all `>= 1`,
sum at most `2^64-1`) into the empty trie succeeds; the entries of the result in
trie order are a permutation of the inserted pairs, and the offsets
`0 .. sum-1` are partitioned into the consecutive spans of these entries: each
offset lies in the span of an entry, and `GetByCumulativeWeight` returns the key
`k` of an entry throughout its span, whose length is the weight of `k`. -/
theorem C6_partition (kws : List (uint256 × Nat)) (hnd : (kws.map Prod.fst).Nodup)
    (hw : ∀ e ∈ kws, 1 ≤ e.2) (hsum : totalWeight kws < UINT64) :
    ∃ t, addAll kws WeightedTrie.empty = some t ∧ t.root.entries.Perm kws ∧
      totalWeight t.root.entries = totalWeight kws ∧
      (∀ offset, offset < totalWeight kws →
        ∃ pre k w post, t.root.entries = pre ++ (k, w) :: post ∧
          totalWeight pre ≤ offset ∧ offset < totalWeight pre + w) ∧
      (∀ pre k w post offset fuel, t.root.entries = pre ++ (k, w) :: post →
        totalWeight pre ≤ offset → offset < totalWeight pre + w → t.root.height < fuel →
        t.GetByCumulativeWeight fuel offset = some (some k)) := by
  obtain ⟨t, h1, h2, h3, h4⟩ := addAll_spec kws WeightedTrie.empty trivial hnd
    (by intro e _ w hmem; simp [WeightedTrie.empty, WeightedTrieNode.entries] at hmem) hw
    (by simpa [WeightedTrie.empty, WeightedTrieNode.leafTotal] using hsum)
  have htot : t.root.leafTotal = totalWeight kws := by
    rw [h4]; simp [WeightedTrie.empty, WeightedTrieNode.leafTotal]
  have hlt : t.root.leafTotal < UINT64 := by rw [htot]; exact hsum
  have htot' : totalWeight t.root.entries = totalWeight kws := by
    rw [← leafTotal_eq_totalWeight]; exact htot
  refine ⟨t, h1, ?_, htot', ?_, ?_⟩
  · apply (List.perm_ext_iff_of_nodup (root_entries_nodup h2) (List.Nodup.of_map _ hnd)).mpr
    intro e
    rw [h3 e]
    simp [WeightedTrie.empty, WeightedTrieNode.entries]
  · intro offset ho
    exact spanLookup_exists _ _ (by rw [htot']; exact ho)
  · intro pre k w post offset fuel he e1 e2 hf
    rw [GetByCumulativeWeight_eq h2 hlt fuel offset hf, he,
      spanLookup_decomp pre post k w offset e1 e2]

theorem C6_partition_witness :
    ∃ t, addAll [(keyB, 3), (keyA, 5)] WeightedTrie.empty = some t ∧
      t.root.entries.Perm [(keyB, 3), (keyA, 5)] ∧
      totalWeight t.root.entries = totalWeight [(keyB, 3), (keyA, 5)] ∧
      (∀ offset, offset < totalWeight [(keyB, 3), (keyA, 5)] →
        ∃ pre k w post, t.root.entries = pre ++ (k, w) :: post ∧
          totalWeight pre ≤ offset ∧ offset < totalWeight pre + w) ∧
      (∀ pre k w post offset fuel, t.root.entries = pre ++ (k, w) :: post →
        totalWeight pre ≤ offset → offset < totalWeight pre + w → t.root.height < fuel →
        t.GetByCumulativeWeight fuel offset = some (some k)) :=
  C6_partition [(keyB, 3), (keyA, 5)] (by decide) (by decide) (by decide)

/-- C7: on a trie reached without the exact total weight ever exceeding
`2^64-1`, `GetByCumulativeWeight(offset)` (run with enough fuel) returns no
result if and only if the trie is empty or `offset` is at least the sum of the
stored weights; otherwise it returns a key for which `Contains` is true. -/
theorem C7_get_by_bounds (t : WeightedTrie) (h : ReachableExact t) (offset fuel : Nat)
    (hf : t.root.height < fuel) :
    (t.GetByCumulativeWeight fuel offset = some none ↔
      (t.root = null ∨ totalWeight t.root.entries ≤ offset)) ∧
    (¬ (t.root = null ∨ totalWeight t.root.entries ≤ offset) →
      ∃ k, t.GetByCumulativeWeight fuel offset = some (some k) ∧ t.Contains k = true) := by
  have heq := GetByCumulativeWeight_eq (reachableExact_inv h) (reachableExact_total_lt h) fuel offset hf
  have hsome : ¬ totalWeight t.root.entries ≤ offset →
      ∃ k, spanLookup t.root.entries offset = some k := by
    intro hlt
    obtain ⟨pre, k, w, post, e1, e2, e3⟩ := spanLookup_exists t.root.entries offset (by omega)
    exact ⟨k, by rw [e1]; exact spanLookup_decomp pre post k w offset e2 e3⟩
  constructor
  · rw [heq]
    constructor
    · intro hnone
      right
      by_contra hlt
      obtain ⟨k, hk⟩ := hsome hlt
      rw [hk] at hnone
      simp at hnone
    · rintro (hnull | hle)
      · rw [hnull]; rfl
      · rw [spanLookup_of_le _ _ hle]
  · intro hnot
    push_neg at hnot
    obtain ⟨k, hk⟩ := hsome (by omega)
    refine ⟨k, by rw [heq, hk], ?_⟩
    exact (Contains_iff (reachableExact_inv h) k).mpr (spanLookup_mem _ _ _ hk)

theorem C7_get_by_bounds_witness :
    (sampleAB.GetByCumulativeWeight 2 20 = some none ↔
      (sampleAB.root = null ∨ totalWeight sampleAB.root.entries ≤ 20)) ∧
    (¬ (sampleAB.root = null ∨ totalWeight sampleAB.root.entries ≤ 20) →
      ∃ k, sampleAB.GetByCumulativeWeight 2 20 = some (some k) ∧ sampleAB.Contains k = true) :=
  C7_get_by_bounds sampleAB sampleAB_reachableExact 20 2 (by decide)

/-- C8 fails as stated: after `Add(keyA, 2^63)` and `Add(keyB, 2^63)` the root
is an internal node of weight `0`, while its children's weights and the stored
weights sum to `2^64`. -/
theorem C8_counterexample :
    Reachable wrapAB ∧ wrapAB.root = nonLeaf 0 wrapChildren ∧
    (∑ i, (wrapChildren i).weight) = 18446744073709551616 ∧
    totalWeight wrapAB.root.entries = 18446744073709551616 ∧ wrapAB.root.weight = 0 :=
  ⟨wrapAB_reachable, rfl, by decide, by decide, by decide⟩

/-- C8 (amended): after any sequence of `Add` and `Remove` calls from the empty
trie with arbitrary 64-bit weights, every internal node's weight equals the sum
of its present children's weights modulo `2^64`, and the root's weight equals
the sum of the stored weights modulo `2^64`; whenever the exact sum of the
stored weights is at most `2^64-1`, both equalities hold for the exact sums. -/
theorem C8_weight_sum (t : WeightedTrie) (h : Reachable t) :
    (∀ nw child, Within (nonLeaf nw child) t.root →
      nw = (∑ i, (child i).weight) % UINT64) ∧
    t.root.weight = totalWeight t.root.entries % UINT64 ∧
    (totalWeight t.root.entries < UINT64 →
      (∀ nw child, Within (nonLeaf nw child) t.root → nw = ∑ i, (child i).weight) ∧
      t.root.weight = totalWeight t.root.entries) := by
  have hinv := (reachable_inv h)
  refine ⟨?_, ?_, ?_⟩
  · intro nw child hin
    obtain ⟨level, hl⟩ := within_inv hin 0 hinv
    exact hl.2.1
  · rw [← leafTotal_eq_totalWeight]
    exact weight_eq_leafTotal_mod _ 0 hinv
  · intro hlt
    rw [← leafTotal_eq_totalWeight] at hlt ⊢
    refine ⟨?_, weight_eq_leafTotal hinv hlt⟩
    intro nw child hin
    obtain ⟨level, hl⟩ := within_inv hin 0 hinv
    have hnode : (nonLeaf nw child).leafTotal < UINT64 := lt_of_le_of_lt (within_leafTotal_le hin) hlt
    have hw := weight_eq_leafTotal hl hnode
    simp only [WeightedTrieNode.weight, WeightedTrieNode.leafTotal] at hw
    rw [hw]
    apply Finset.sum_congr rfl
    intro i _
    exact (weight_eq_leafTotal (hl.2.2.2 i).1
      (lt_of_le_of_lt (child_leafTotal_le nw child i) hnode)).symm

theorem C8_weight_sum_witness :
    (∀ nw child, Within (nonLeaf nw child) wrapAB.root →
      nw = (∑ i, (child i).weight) % UINT64) ∧
    wrapAB.root.weight = totalWeight wrapAB.root.entries % UINT64 ∧
    (totalWeight wrapAB.root.entries < UINT64 →
      (∀ nw child, Within (nonLeaf nw child) wrapAB.root → nw = ∑ i, (child i).weight) ∧
      wrapAB.root.weight = totalWeight wrapAB.root.entries) :=
  C8_weight_sum wrapAB wrapAB_reachable

theorem Add_rejected (t : WeightedTrie) (key : uint256) (w : Nat)
    (h : w = 0 ∨ t.Contains key = true) : t.Add key w = some (t, false) := by
  unfold WeightedTrie.Add
  by_cases hw : w = 0
  · rw [if_pos hw]
  · rw [if_neg hw]
    rcases h with h | h
    · exact absurd h hw
    · rw [if_pos h]

/-- C9: a rejected `Add` changes nothing: when `Add(k, w)` returns false the
trie is exactly as before the call; on a reachable trie a second `Add(k, w)`
right after an `Add(k, w)` returns false and leaves the trie (hence the total
weight) unchanged; `Add(k, 0)` returns false and leaves the trie, hence
`Contains(k)`, unchanged. -/
theorem C9_rejected_add_noop (t : WeightedTrie) (h : Reachable t) (key : uint256) (w : Nat)
    (hw : w < UINT64) :
    (∀ t', t.Add key w = some (t', false) → t' = t) ∧
    (∀ t1 b1, t.Add key w = some (t1, b1) → t1.Add key w = some (t1, false)) ∧
    t.Add key 0 = some (t, false) := by
  refine ⟨?_, ?_, Add_rejected t key 0 (Or.inl rfl)⟩
  · intro t' hadd
    rcases Add_cases hadd with ⟨_, h1, _⟩ | ⟨hb, _⟩
    · exact h1
    · exact absurd hb (by simp)
  · intro t1 b1 hadd
    rcases Add_cases hadd with ⟨_, h1, h2⟩ | ⟨hb, _, _, _⟩
    · rw [h1]
      exact Add_rejected t key w h2
    · subst hb
      obtain ⟨a1, _, _, _, a5⟩ := Add_true_spec (reachable_inv h) hw hadd
      apply Add_rejected
      right
      exact (Contains_iff a1 key).mpr ⟨w, (a5 _).mpr (Or.inl rfl)⟩

theorem C9_rejected_add_noop_witness :
    (∀ t', sampleA.Add keyB 10 = some (t', false) → t' = sampleA) ∧
    (∀ t1 b1, sampleA.Add keyB 10 = some (t1, b1) → t1.Add keyB 10 = some (t1, false)) ∧
    sampleA.Add keyB 0 = some (sampleA, false) :=
  C9_rejected_add_noop sampleA (reachableExact_reachable sampleA_reachableExact) keyB 10 (by decide)

/-- C10: single-entry scenario. For every key `K` and weight `w >= 1`,
`Add(K, w)` on the empty trie returns true; then `Contains(K)` is true,
`GetByCumulativeWeight(c)` returns `K` for every `c < w` and no result for every
`c >= w` (with any positive fuel); `Remove(K)` returns true and empties the
trie, and a second `Remove(K)` returns false. -/
theorem C10_single_entry (K : uint256) (w : Nat) (hw1 : 1 ≤ w) (_hw2 : w < UINT64) :
    WeightedTrie.empty.Add K w = some (⟨leaf K w⟩, true) ∧
    (WeightedTrie.mk (leaf K w)).Contains K = true ∧
    (∀ c fuel, c < w → 1 ≤ fuel →
      (WeightedTrie.mk (leaf K w)).GetByCumulativeWeight fuel c = some (some K)) ∧
    (∀ c fuel, w ≤ c →
      (WeightedTrie.mk (leaf K w)).GetByCumulativeWeight fuel c = some none) ∧
    (WeightedTrie.mk (leaf K w)).Remove K = (WeightedTrie.empty, true) ∧
    WeightedTrie.empty.Remove K = (WeightedTrie.empty, false) := by
  have hw0 : w ≠ 0 := by omega
  refine ⟨?_, ?_, ?_, ?_, ?_, ?_⟩
  · simp [WeightedTrie.Add, WeightedTrie.empty, WeightedTrie.Contains, ContainsLoop, AddLoop, hw0]
  · simp [WeightedTrie.Contains, ContainsLoop]
  · intro c fuel hc hf
    obtain ⟨f, rfl⟩ : ∃ f, fuel = f + 1 := ⟨fuel - 1, by omega⟩
    have : ¬ w ≤ c := by omega
    simp [WeightedTrie.GetByCumulativeWeight, WeightedTrieNode.weight, GetLoop, this]
  · intro c fuel hc
    simp [WeightedTrie.GetByCumulativeWeight, WeightedTrieNode.weight, hc]
  · simp [WeightedTrie.Remove, RemoveRecursive, WeightedTrie.empty, hw0]
  · simp [WeightedTrie.Remove, RemoveRecursive, WeightedTrie.empty]

theorem C10_single_entry_witness :
    WeightedTrie.empty.Add keyA 10 = some (⟨leaf keyA 10⟩, true) ∧
    (WeightedTrie.mk (leaf keyA 10)).Contains keyA = true ∧
    (∀ c fuel, c < 10 → 1 ≤ fuel →
      (WeightedTrie.mk (leaf keyA 10)).GetByCumulativeWeight fuel c = some (some keyA)) ∧
    (∀ c fuel, 10 ≤ c →
      (WeightedTrie.mk (leaf keyA 10)).GetByCumulativeWeight fuel c = some none) ∧
    (WeightedTrie.mk (leaf keyA 10)).Remove keyA = (WeightedTrie.empty, true) ∧
    WeightedTrie.empty.Remove keyA = (WeightedTrie.empty, false) :=
  C10_single_entry keyA 10 (by decide) (by decide)


/-! ## Sample tries with a chain -/

theorem sampleAD_add : sampleA.Add keyD 5 = some (sampleAD, true) := by rfl

theorem sampleAD_reachableExact : ReachableExact sampleAD :=
  ReachableExact.addExact keyD 5 sampleA_reachableExact (by decide) sampleAD_add (by decide)

theorem sampleChainA_reachableExact : ReachableExact sampleChainA :=
  ReachableExact.removeExact keyD sampleAD_reachableExact

theorem sampleChainA_entries : sampleChainA.root.entries = [(keyA, 10)] := by decide

theorem sampleChainA_height : sampleChainA.root.height = 2 := by decide
/-! ## Tries with the same entries -/

theorem keyLt_asymm {a b : uint256} (h1 : keyLt a b) (h2 : keyLt b a) : False := by
  obtain ⟨l1, _, e1, lt1⟩ := h1
  obtain ⟨l2, _, e2, lt2⟩ := h2
  rcases Nat.lt_trichotomy l1 l2 with h | h | h
  · have := e2 l1 h
    omega
  · subst h
    omega
  · have := e1 l2 h
    omega

theorem root_eq_null_iff {node : WeightedTrieNode} {level : Nat} (hinv : TrieInv level node) :
    node = null ↔ node.entries = [] := by
  constructor
  · intro h; rw [h]; rfl
  · intro h
    by_contra hne
    exact entries_ne_nil node level hinv hne h

/-- Two tries that satisfy the invariant and store the same set of entries
list them in the same order. -/
theorem entries_eq_of_mem_iff {n1 n2 : WeightedTrieNode} (h1 : TrieInv 0 n1)
    (h2 : TrieInv 0 n2) (hsame : ∀ e, e ∈ n1.entries ↔ e ∈ n2.entries) :
    n1.entries = n2.entries := by
  haveI : IsAntisymm (uint256 × Nat) (fun a b => keyLt a.1 b.1) :=
    ⟨fun a b hab hba => absurd hba (fun h => keyLt_asymm hab h)⟩
  have hperm : n1.entries.Perm n2.entries :=
    (List.perm_ext_iff_of_nodup (root_entries_nodup h1) (root_entries_nodup h2)).mpr hsame
  exact List.eq_of_perm_of_sorted hperm (root_entries_sorted h1) (root_entries_sorted h2)

/-- Two tries that satisfy the invariant, whose exact totals fit in 64 bits
and that store the same set of entries give the same answers. -/
theorem observational_eq {t1 t2 : WeightedTrie} (h1 : TrieInv 0 t1.root)
    (h2 : TrieInv 0 t2.root) (l1 : t1.root.leafTotal < UINT64) (l2 : t2.root.leafTotal < UINT64)
    (hsame : ∀ e, e ∈ t1.root.entries ↔ e ∈ t2.root.entries) :
    t1.root.weight = t2.root.weight ∧ (t1.root = null ↔ t2.root = null) ∧
    (∀ k, t1.Contains k = t2.Contains k) ∧
    (∀ offset fuel1 fuel2, t1.root.height < fuel1 → t2.root.height < fuel2 →
      t1.GetByCumulativeWeight fuel1 offset = t2.GetByCumulativeWeight fuel2 offset) := by
  have he := entries_eq_of_mem_iff h1 h2 hsame
  refine ⟨?_, ?_, ?_, ?_⟩
  · rw [weight_eq_leafTotal h1 l1, weight_eq_leafTotal h2 l2, leafTotal_eq_totalWeight,
      leafTotal_eq_totalWeight, he]
  · rw [root_eq_null_iff h1, root_eq_null_iff h2, he]
  · intro k
    apply Contains_congr h2 h1
    rw [he]
  · intro offset fuel1 fuel2 f1 f2
    rw [GetByCumulativeWeight_eq h1 l1 fuel1 offset f1,
      GetByCumulativeWeight_eq h2 l2 fuel2 offset f2, he]

/-! ## Claims on collapse, non-empty nodes and slot selection -/

/-- C11: on a trie reached without the exact total weight ever exceeding
`2^64-1` that stores exactly one key `k` (possibly below a chain of single-child
internal nodes), `Remove(k)` returns true and leaves the root absent: the
result is the freshly constructed trie. -/
theorem C11_collapse_to_empty (t : WeightedTrie) (h : ReachableExact t) (k : uint256) (w : Nat)
    (hs : t.root.entries = [(k, w)]) : t.Remove k = (WeightedTrie.empty, true) := by
  have hinv := reachableExact_inv h
  obtain ⟨q1, _, _, q4, _, q6, _⟩ := removeRecursive_inv k t.root 0 hinv
  have hmem : (k, w) ∈ t.root.entries := by rw [hs]; exact List.mem_singleton.mpr rfl
  have hd : (RemoveRecursive k 0 t.root).2 = w := q6 w hmem
  have hw1 := (entries_weight_bounds t.root 0 hinv _ hmem).1
  simp only at hw1
  have hnull : (RemoveRecursive k 0 t.root).1 = null := by
    by_contra hne
    apply entries_ne_nil _ 0 q1 hne
    apply List.eq_nil_iff_forall_not_mem.mpr
    intro e he
    have h1 := q4 e he
    rw [hs, List.mem_singleton] at h1
    exact h1.2 (by rw [h1.1])
  simp only [WeightedTrie.Remove, WeightedTrie.empty, hnull, hd]
  simp
  omega

theorem C11_collapse_to_empty_witness :
    sampleChainA.root.height = 2 ∧ sampleChainA.Remove keyA = (WeightedTrie.empty, true) :=
  ⟨by decide, C11_collapse_to_empty sampleChainA sampleChainA_reachableExact keyA 10 (by decide)⟩

/-- C13: after any sequence of `Add` and `Remove` calls from the empty trie,
every internal node of the trie has at least one non-empty child slot. -/
theorem C13_internal_nonempty (t : WeightedTrie) (h : Reachable t) :
    ∀ nw child, Within (nonLeaf nw child) t.root → ∃ i, child i ≠ null := by
  intro nw child hin
  obtain ⟨level, hl⟩ := within_inv hin 0 (reachable_inv h)
  exact hl.2.2.1

theorem C13_internal_nonempty_witness : ∃ i, wrapChildren i ≠ null :=
  C13_internal_nonempty wrapAB wrapAB_reachable 0 wrapChildren (Within.refl _)

/-- C17: for every key and level the slot index of `SelectChildFromKey` is
below 16; it is the low 4 bits of byte `(level / 2) mod 32` when `level` is
even and the high 4 bits of that byte when `level` is odd; for `level < 64` the
modulo has no effect (the byte index is `level / 2`) and the slot is nibble
`level` of the key. -/
theorem C17_select_slot (key : uint256) (level : Nat) :
    (SelectChildFromKey key level).val < 16 ∧
    (level % 2 = 0 →
      (SelectChildFromKey key level).val = key.byte ((level / 2) % 32) % 16) ∧
    (level % 2 = 1 →
      (SelectChildFromKey key level).val = key.byte ((level / 2) % 32) / 16) ∧
    (level < 64 → (level / 2) % 32 = level / 2 ∧
      (SelectChildFromKey key level).val = nibble key level) := by
  have hb := uint256_byte_lt key ((level / 2) % 32)
  refine ⟨(SelectChildFromKey key level).isLt, ?_, ?_, ?_⟩
  · intro h
    rw [select_val, h]
    norm_num
  · intro h
    rw [select_val, h]
    norm_num
    omega
  · intro h
    exact ⟨by omega, select_eq_nibble key level h⟩
/-! ## Claims on history independence, round trips and overflow -/

/-- C18: two tries reached without the exact total weight ever exceeding
`2^64-1` that store the same set of `(key, weight)` entries have the same root
weight, are both empty or both non-empty, and return the same result for
`GetByCumulativeWeight(offset)` at every offset (each run with enough fuel),
whatever their node structures. -/
theorem C18_history_independence (t1 t2 : WeightedTrie) (h1 : ReachableExact t1)
    (h2 : ReachableExact t2) (hsame : ∀ e, e ∈ t1.root.entries ↔ e ∈ t2.root.entries) :
    t1.root.weight = t2.root.weight ∧ (t1.root = null ↔ t2.root = null) ∧
    (∀ offset fuel1 fuel2, t1.root.height < fuel1 → t2.root.height < fuel2 →
      t1.GetByCumulativeWeight fuel1 offset = t2.GetByCumulativeWeight fuel2 offset) := by
  obtain ⟨a, b, _, d⟩ := observational_eq (reachableExact_inv h1) (reachableExact_inv h2)
    (reachableExact_total_lt h1) (reachableExact_total_lt h2) hsame
  exact ⟨a, b, d⟩

theorem C18_history_independence_witness :
    sampleChainA.root.height = 2 ∧ sampleA.root.height = 0 ∧
    sampleChainA.root.weight = sampleA.root.weight ∧
    (sampleChainA.root = null ↔ sampleA.root = null) ∧
    (∀ offset fuel1 fuel2, sampleChainA.root.height < fuel1 → sampleA.root.height < fuel2 →
      sampleChainA.GetByCumulativeWeight fuel1 offset
        = sampleA.GetByCumulativeWeight fuel2 offset) :=
  ⟨by decide, by decide,
    C18_history_independence sampleChainA sampleA sampleChainA_reachableExact
      sampleA_reachableExact (fun e => by rw [sampleChainA_entries]; rfl)⟩

/-- C19: on a reachable trie, for a key `k` that is not stored and a weight
`w >= 1` such that the exact total weight plus `w` is at most `2^64-1`,
`Add(k, w)` returns true, the following `Remove(k)` returns true, and the
resulting trie has the same root weight as the original (both roots absent or
both present), the same `Contains` answer for every key and the same
`GetByCumulativeWeight` answer for every offset (each run with enough fuel). -/
theorem C19_add_remove_round_trip (t : WeightedTrie) (h : Reachable t) (k : uint256) (w : Nat)
    (hk : t.Contains k = false) (hw1 : 1 ≤ w)
    (hsum : totalWeight t.root.entries + w < UINT64) :
    ∃ t1, t.Add k w = some (t1, true) ∧ (t1.Remove k).2 = true ∧
      (t1.Remove k).1.root.weight = t.root.weight ∧
      ((t1.Remove k).1.root = null ↔ t.root = null) ∧
      (∀ k', (t1.Remove k).1.Contains k' = t.Contains k') ∧
      (∀ offset fuel fuel', (t1.Remove k).1.root.height < fuel → t.root.height < fuel' →
        (t1.Remove k).1.GetByCumulativeWeight fuel offset
          = t.GetByCumulativeWeight fuel' offset) := by
  have hinv := reachable_inv h
  rw [← leafTotal_eq_totalWeight] at hsum
  obtain ⟨t1, ht1⟩ := Add_result t k w
  have hflag : decide (w ≠ 0 ∧ t.Contains k = false) = true := by
    simp [hk]; omega
  rw [hflag] at ht1
  obtain ⟨a1, _, a3, _, a5⟩ := Add_true_spec hinv (by omega) ht1
  have hlt1 : t1.root.leafTotal < UINT64 := by rw [a3]; exact hsum
  obtain ⟨q1, _, _, _, q5, q6, _⟩ := removeRecursive_inv k t1.root 0 a1
  obtain ⟨p1, _⟩ := removeRecursive_exact k t1.root 0 a1 hlt1
  have hd : (RemoveRecursive k 0 t1.root).2 = w := q6 w ((a5 _).mpr (Or.inl rfl))
  have hsame : ∀ e, e ∈ (t1.Remove k).1.root.entries ↔ e ∈ t.root.entries := by
    intro e
    have hp := p1 e
    simp only [WeightedTrie.Remove]
    rw [hp, a5 e]
    constructor
    · rintro ⟨h1 | h1, h2⟩
      · exact absurd (by rw [h1]) h2
      · exact h1
    · intro he
      refine ⟨Or.inr he, ?_⟩
      intro hek
      have hc : t.Contains k = true :=
        (Contains_iff hinv k).mpr ⟨e.2, by rw [← hek]; exact he⟩
      rw [hk] at hc
      exact absurd hc (by simp)
  obtain ⟨o1, o2, o3, o4⟩ := @observational_eq (t1.Remove k).1 t q1 hinv
    (lt_of_le_of_lt q5 hlt1) (by omega) hsame
  refine ⟨t1, ht1, ?_, o1, o2, o3, o4⟩
  simp only [WeightedTrie.Remove, hd, decide_eq_true_eq]
  omega

theorem C19_add_remove_round_trip_witness :
    ∃ t1, sampleA.Add keyD 5 = some (t1, true) ∧ (t1.Remove keyD).2 = true ∧
      (t1.Remove keyD).1.root.weight = sampleA.root.weight ∧
      ((t1.Remove keyD).1.root = null ↔ sampleA.root = null) ∧
      (∀ k', (t1.Remove keyD).1.Contains k' = sampleA.Contains k') ∧
      (∀ offset fuel fuel', (t1.Remove keyD).1.root.height < fuel →
        sampleA.root.height < fuel' →
        (t1.Remove keyD).1.GetByCumulativeWeight fuel offset
          = sampleA.GetByCumulativeWeight fuel' offset) :=
  C19_add_remove_round_trip sampleA (reachableExact_reachable sampleA_reachableExact) keyD 5
    (by decide) (by decide) (by decide)

/-- C20: `Add` performs no overflow check. On every reachable trie with an
internal root, for every key `k` that is not stored and every 64-bit `w != 0`,
`Add(k, w)` returns true and the root weight afterwards is
(root weight before + `w`) modulo `2^64`. After `Add(keyA, 2^63)` and
`Add(keyB, 2^63)`, both successful, the root weight is `0` while both keys are
stored, and `GetByCumulativeWeight` returns no result for every offset. -/
theorem C20_add_wraps :
    (∀ t : WeightedTrie, Reachable t → (∃ nw child, t.root = nonLeaf nw child) →
      ∀ (k : uint256) (w : Nat), t.Contains k = false → w ≠ 0 → w < UINT64 →
        ∃ t', t.Add k w = some (t', true) ∧
          t'.root.weight = (t.root.weight + w) % UINT64) ∧
    (WeightedTrie.empty.Add keyA 9223372036854775808
        = some (⟨leaf keyA 9223372036854775808⟩, true) ∧
      (WeightedTrie.mk (leaf keyA 9223372036854775808)).Add keyB 9223372036854775808
        = some (wrapAB, true) ∧
      keyA ≠ keyB ∧ wrapAB.root.weight = 0 ∧
      wrapAB.Contains keyA = true ∧ wrapAB.Contains keyB = true ∧
      ∀ fuel offset, wrapAB.GetByCumulativeWeight fuel offset = some none) := by
  refine ⟨?_, by rfl, by rfl, by decide, by decide, by decide, by decide, ?_⟩
  · intro t h _ k w hk hw0 hw
    obtain ⟨t', ht'⟩ := Add_result t k w
    have hflag : decide (w ≠ 0 ∧ t.Contains k = false) = true := by
      simp [hk, hw0]
    rw [hflag] at ht'
    exact ⟨t', ht', (Add_true_spec (reachable_inv h) hw ht').2.1⟩
  · intro fuel offset
    simp [WeightedTrie.GetByCumulativeWeight, wrapAB, WeightedTrieNode.weight]
/-! ## Descent paths -/

theorem nodeAt_leaf_mem : ∀ (p : List (Fin 16)) (node : WeightedTrieNode) (k : uint256)
    (w : Nat), nodeAt node p = leaf k w → (k, w) ∈ node.entries := by
  intro p
  induction p with
  | nil =>
    intro node k w h
    simp only [nodeAt] at h
    rw [h]
    simp [WeightedTrieNode.entries]
  | cons i p ih =>
    intro node k w h
    cases node with
    | null => simp [nodeAt] at h
    | leaf lk lw => simp [nodeAt] at h
    | nonLeaf nw child =>
      simp only [nodeAt] at h
      exact mem_entries_nonLeaf.mpr ⟨i, ih _ k w h⟩

theorem nodeAt_path : ∀ (p : List (Fin 16)) (node : WeightedTrieNode) (level : Nat)
    (k : uint256) (w : Nat), TrieInv level node → nodeAt node p = leaf k w →
    p = (List.range p.length).map (fun j => SelectChildFromKey k (level + j)) := by
  intro p
  induction p with
  | nil => intro node level k w _ _; rfl
  | cons i p ih =>
    intro node level k w hinv h
    cases node with
    | null => simp [nodeAt] at h
    | leaf lk lw => simp [nodeAt] at h
    | nonLeaf nw child =>
      simp only [nodeAt] at h
      have hsel := (hinv.2.2.2 i).2 _ (nodeAt_leaf_mem p _ k w h)
      simp only at hsel
      have hrec := ih (child i) (level + 1) k w (hinv.2.2.2 i).1 h
      rw [List.length_cons, List.range_succ_eq_map, List.map_cons, List.map_map]
      rw [Nat.add_zero, hsel]
      congr 1
      rw [hrec]
      simp only [List.length_map, List.length_range]
      apply List.map_congr_left
      intro j _
      simp only [Function.comp_apply]
      congr 1
      omega

theorem nodeAt_unique : ∀ (p1 p2 : List (Fin 16)) (node : WeightedTrieNode) (level : Nat)
    (k : uint256) (w1 w2 : Nat), TrieInv level node → nodeAt node p1 = leaf k w1 →
    nodeAt node p2 = leaf k w2 → p1 = p2 ∧ w1 = w2 := by
  intro p1
  induction p1 with
  | nil =>
    intro p2 node level k w1 w2 _ h1 h2
    simp only [nodeAt] at h1
    subst h1
    cases p2 with
    | nil =>
      simp only [nodeAt, leaf.injEq] at h2
      exact ⟨rfl, h2.2⟩
    | cons i p => simp [nodeAt] at h2
  | cons i p1 ih =>
    intro p2 node level k w1 w2 hinv h1 h2
    cases node with
    | null => simp [nodeAt] at h1
    | leaf lk lw => simp [nodeAt] at h1
    | nonLeaf nw child =>
      cases p2 with
      | nil => simp [nodeAt] at h2
      | cons i2 p2 =>
        simp only [nodeAt] at h1 h2
        have s1 := (hinv.2.2.2 i).2 _ (nodeAt_leaf_mem p1 _ k w1 h1)
        have s2 := (hinv.2.2.2 i2).2 _ (nodeAt_leaf_mem p2 _ k w2 h2)
        simp only at s1 s2
        have hi : i = i2 := by rw [← s1, ← s2]
        subst hi
        obtain ⟨e1, e2⟩ := ih p2 (child i) (level + 1) k w1 w2 (hinv.2.2.2 i).1 h1 h2
        exact ⟨by rw [e1], e2⟩

/-- C12: after any sequence of `Add` and `Remove` calls from the empty trie,
the path to every leaf at depth `d` is the list of the slots
`SelectChildFromKey(key, 0), ..., SelectChildFromKey(key, d-1)` of its own key;
no key appears in two leaves; and for every leaf the descent of `Contains`
finds its key and the descent of `Remove` reaches it (it returns the leaf's
weight as the deleted weight, so `Remove` returns true). -/
theorem C12_descent_path (t : WeightedTrie) (h : Reachable t) :
    (∀ p k w, nodeAt t.root p = leaf k w →
      p = (List.range p.length).map (SelectChildFromKey k)) ∧
    (∀ p1 p2 k w1 w2, nodeAt t.root p1 = leaf k w1 → nodeAt t.root p2 = leaf k w2 →
      p1 = p2 ∧ w1 = w2) ∧
    (∀ p k w, nodeAt t.root p = leaf k w →
      t.Contains k = true ∧ (RemoveRecursive k 0 t.root).2 = w ∧ (t.Remove k).2 = true) := by
  have hinv := reachable_inv h
  refine ⟨?_, ?_, ?_⟩
  · intro p k w hp
    have := nodeAt_path p t.root 0 k w hinv hp
    simpa only [Nat.zero_add] using this
  · intro p1 p2 k w1 w2 h1 h2
    exact nodeAt_unique p1 p2 t.root 0 k w1 w2 hinv h1 h2
  · intro p k w hp
    have hmem := nodeAt_leaf_mem p t.root k w hp
    have hd := (removeRecursive_inv k t.root 0 hinv).2.2.2.2.2.1 w hmem
    have hw1 := (entries_weight_bounds t.root 0 hinv _ hmem).1
    simp only at hw1
    refine ⟨(Contains_iff hinv k).mpr ⟨w, hmem⟩, hd, ?_⟩
    simp only [WeightedTrie.Remove, hd, decide_eq_true_eq]
    omega

theorem C12_descent_path_witness :
    nodeAt sampleAD.root [0, 1] = leaf keyD 5 ∧
    ((∀ p k w, nodeAt sampleAD.root p = leaf k w →
      p = (List.range p.length).map (SelectChildFromKey k)) ∧
    (∀ p1 p2 k w1 w2, nodeAt sampleAD.root p1 = leaf k w1 →
      nodeAt sampleAD.root p2 = leaf k w2 → p1 = p2 ∧ w1 = w2) ∧
    (∀ p k w, nodeAt sampleAD.root p = leaf k w →
      sampleAD.Contains k = true ∧ (RemoveRecursive k 0 sampleAD.root).2 = w ∧
        (sampleAD.Remove k).2 = true)) :=
  ⟨by rfl, C12_descent_path sampleAD (reachableExact_reachable sampleAD_reachableExact)⟩
/-! ## Depth bound -/

theorem pushDown_depth (lk : uint256) (lw level : Nat) (h : level ≤ 63) (i : Fin 16) :
    DepthInv (level + 1)
      (Function.update emptyChildren (SelectChildFromKey lk level) (leaf lk lw) i) := by
  by_cases hi : i = SelectChildFromKey lk level
  · subst hi
    rw [Function.update_same]
    simp only [DepthInv]
    omega
  · rw [Function.update_noteq hi]
    simp [emptyChildren, DepthInv]

theorem addLoop_depth (key : uint256) (w : Nat) :
    ∀ (fuel level : Nat) (node : WeightedTrieNode), TrieInv level node → DepthInv level node →
      (∀ e ∈ node.entries, ∀ j, j < level →
        SelectChildFromKey e.1 j = SelectChildFromKey key j) →
      ContainsLoop key level node = false → level ≤ 64 →
      (∀ l ∈ AddLoopLevels key fuel level node, l ≤ 63) ∧
      (∀ r, AddLoop key w fuel level node = some r → DepthInv level r) := by
  intro fuel
  induction fuel with
  | zero =>
    intro level node _ _ _ _ hl
    cases node with
    | null =>
      refine ⟨by simp [AddLoopLevels], ?_⟩
      intro r hr
      simp only [AddLoop, Option.some.injEq] at hr
      subst hr
      exact hl
    | leaf lk lw => exact ⟨by simp [AddLoopLevels], by simp [AddLoop]⟩
    | nonLeaf nw child => exact ⟨by simp [AddLoopLevels], by simp [AddLoop]⟩
  | succ fuel ih =>
    intro level node hinv hdep hpre hc hl
    cases node with
    | null =>
      refine ⟨by simp [AddLoopLevels], ?_⟩
      intro r hr
      simp only [AddLoop, Option.some.injEq] at hr
      subst hr
      exact hl
    | leaf lk lw =>
      have hne : key ≠ lk := by
        intro h; subst h; simp [ContainsLoop] at hc
      have hlev : level ≤ 63 := by
        by_contra hcon
        apply hne
        apply eq_of_select_eq
        intro l hl64
        exact (hpre (lk, lw) (by simp [WeightedTrieNode.entries]) l (by omega)).symm
      obtain ⟨_, _, p3, p4⟩ := pushDown_children lk lw level hinv.1 hinv.2
      have hpre' : ∀ e ∈ (Function.update emptyChildren (SelectChildFromKey lk level)
          (leaf lk lw) (SelectChildFromKey key level)).entries, ∀ j, j < level + 1 →
          SelectChildFromKey e.1 j = SelectChildFromKey key j := by
        intro e he j hj
        have he1 : e = (lk, lw) := (p4 e).mp ⟨_, he⟩
        by_cases hjl : j = level
        · subst hjl
          exact (p3 _).2 e he
        · rw [he1]
          exact hpre (lk, lw) (by simp [WeightedTrieNode.entries]) j (by omega)
      have hc' : ContainsLoop key (level + 1) (Function.update emptyChildren
          (SelectChildFromKey lk level) (leaf lk lw) (SelectChildFromKey key level)) = false := by
        cases hcc : ContainsLoop key (level + 1) (Function.update emptyChildren
          (SelectChildFromKey lk level) (leaf lk lw) (SelectChildFromKey key level)) with
        | false => rfl
        | true =>
          obtain ⟨w', hw'⟩ := (containsLoop_iff key _ (level + 1) (p3 _).1).mp hcc
          have := (p4 _).mp ⟨_, hw'⟩
          simp only [Prod.mk.injEq] at this
          exact absurd this.1 hne
      obtain ⟨r1, r2⟩ := ih (level + 1) _ (p3 _).1 (pushDown_depth lk lw level hlev _)
        hpre' hc' (by omega)
      refine ⟨?_, ?_⟩
      · intro l hmem
        simp only [AddLoopLevels, List.mem_cons] at hmem
        rcases hmem with h1 | h1 | h1
        · omega
        · omega
        · exact r1 l h1
      · intro r hr
        simp only [AddLoop, Option.map_eq_some'] at hr
        obtain ⟨c, hc1, rfl⟩ := hr
        refine ⟨hlev, ?_⟩
        intro i
        by_cases hi : i = SelectChildFromKey key level
        · subst hi
          rw [Function.update_same]
          exact r2 c hc1
        · rw [Function.update_noteq hi]
          exact pushDown_depth lk lw level hlev i
    | nonLeaf nw child =>
      simp only [ContainsLoop] at hc
      have hpre' : ∀ e ∈ (child (SelectChildFromKey key level)).entries, ∀ j, j < level + 1 →
          SelectChildFromKey e.1 j = SelectChildFromKey key j := by
        intro e he j hj
        by_cases hjl : j = level
        · subst hjl
          exact (hinv.2.2.2 _).2 e he
        · exact hpre e (mem_entries_nonLeaf.mpr ⟨_, he⟩) j (by omega)
      obtain ⟨r1, r2⟩ := ih (level + 1) _ (hinv.2.2.2 _).1 (hdep.2 _) hpre' hc
        (by have := hdep.1; omega)
      refine ⟨?_, ?_⟩
      · intro l hmem
        simp only [AddLoopLevels, List.mem_cons] at hmem
        rcases hmem with h1 | h1
        · have := hdep.1; omega
        · exact r1 l h1
      · intro r hr
        simp only [AddLoop, Option.map_eq_some'] at hr
        obtain ⟨c, hc1, rfl⟩ := hr
        refine ⟨hdep.1, ?_⟩
        intro i
        by_cases hi : i = SelectChildFromKey key level
        · subst hi
          rw [Function.update_same]
          exact r2 c hc1
        · rw [Function.update_noteq hi]
          exact hdep.2 i

theorem removeRecursive_depth (key : uint256) : ∀ (node : WeightedTrieNode) (level : Nat),
    DepthInv level node → DepthInv level (RemoveRecursive key level node).1 := by
  intro node
  induction node with
  | null => intro level _; simp [RemoveRecursive, DepthInv]
  | leaf lk lw =>
    intro level h
    by_cases hk : key = lk
    · simp [RemoveRecursive, hk, DepthInv]
    · simp only [RemoveRecursive, if_neg hk]
      exact h
  | nonLeaf nw child ih =>
    intro level h
    rw [removeRecursive_nonLeaf]
    split
    · trivial
    · refine ⟨h.1, ?_⟩
      intro i
      by_cases hi : i = SelectChildFromKey key level
      · subst hi
        rw [Function.update_same]
        exact ih _ (level + 1) (h.2 _)
      · rw [Function.update_noteq hi]
        exact h.2 i

/-- Every reachable trie satisfies the depth bound. -/
theorem reachable_depth {t : WeightedTrie} (h : Reachable t) : DepthInv 0 t.root := by
  induction h with
  | empty => exact trivial
  | add key w hr hw hadd ih =>
    rcases Add_cases hadd with ⟨_, h1, _⟩ | ⟨_, _, hc, hl⟩
    · rw [h1]; exact ih
    · exact (addLoop_depth key w _ 0 _ (reachable_inv hr) ih
        (fun _ _ j hj => absurd hj (Nat.not_lt_zero j)) hc (by omega)).2 _ hl
  | remove key _ ih => exact removeRecursive_depth key _ 0 ih

theorem containsLevels_le (key : uint256) : ∀ (node : WeightedTrieNode) (level : Nat),
    DepthInv level node → ∀ l ∈ ContainsLevels key level node, l ≤ 63 := by
  intro node
  induction node with
  | null => intro level _ l hl; simp [ContainsLevels] at hl
  | leaf lk lw => intro level _ l hl; simp [ContainsLevels] at hl
  | nonLeaf nw child ih =>
    intro level h l hl
    simp only [ContainsLevels, List.mem_cons] at hl
    rcases hl with h1 | h1
    · have := h.1; omega
    · exact ih _ (level + 1) (h.2 _) l h1

theorem removeLevels_le (key : uint256) : ∀ (node : WeightedTrieNode) (level : Nat),
    DepthInv level node → ∀ l ∈ RemoveLevels key level node, l ≤ 63 := by
  intro node
  induction node with
  | null => intro level _ l hl; simp [RemoveLevels] at hl
  | leaf lk lw => intro level _ l hl; simp [RemoveLevels] at hl
  | nonLeaf nw child ih =>
    intro level h l hl
    simp only [RemoveLevels, List.mem_cons] at hl
    rcases hl with h1 | h1
    · have := h.1; omega
    · exact ih _ (level + 1) (h.2 _) l h1

theorem nodeAt_depth : ∀ (p : List (Fin 16)) (node : WeightedTrieNode) (level : Nat),
    DepthInv level node →
    (∀ nw child, nodeAt node p = nonLeaf nw child → level + p.length ≤ 63) ∧
    (∀ k w, nodeAt node p = leaf k w → level + p.length ≤ 64) := by
  intro p
  induction p with
  | nil =>
    intro node level h
    refine ⟨?_, ?_⟩
    · intro nw child hn
      simp only [nodeAt] at hn
      subst hn
      exact h.1
    · intro k w hn
      simp only [nodeAt] at hn
      subst hn
      exact h
  | cons i p ih =>
    intro node level h
    cases node with
    | null => exact ⟨by simp [nodeAt], by simp [nodeAt]⟩
    | leaf lk lw => exact ⟨by simp [nodeAt], by simp [nodeAt]⟩
    | nonLeaf nw child =>
      obtain ⟨a, b⟩ := ih (child i) (level + 1) (h.2 i)
      refine ⟨?_, ?_⟩
      · intro nw' child' hn
        simp only [nodeAt] at hn
        have := a nw' child' hn
        simp only [List.length_cons]
        omega
      · intro k w hn
        simp only [nodeAt] at hn
        have := b k w hn
        simp only [List.length_cons]
        omega

/-- C15: in every trie reachable from the empty trie by `Add` and `Remove`
calls, every internal node is at depth at most 63 and every leaf at depth at
most 64; every call of `SelectChildFromKey` made by `Contains`, `Remove` or
`Add` (its call of `Contains` included) on such a trie has `level <= 63`; for
such a level the modulo on the byte index has no effect and the selected slot
is nibble `level` of the key; and `Add` returns (its loop terminates). -/
theorem C15_depth_bound (t : WeightedTrie) (h : Reachable t) :
    (∀ p nw child, nodeAt t.root p = nonLeaf nw child → p.length ≤ 63) ∧
    (∀ p k w, nodeAt t.root p = leaf k w → p.length ≤ 64) ∧
    (∀ key, ∀ l ∈ ContainsLevels key 0 t.root, l ≤ 63) ∧
    (∀ key, ∀ l ∈ RemoveLevels key 0 t.root, l ≤ 63) ∧
    (∀ key w, ∀ l ∈ AddLevels t key w, l ≤ 63) ∧
    (∀ (key : uint256) (l : Nat), l ≤ 63 →
      (l >>> (3 - WTRIE_LOGLOG_CHILDREN)) % key.size = l >>> (3 - WTRIE_LOGLOG_CHILDREN) ∧
      (SelectChildFromKey key l).val = nibble key l) ∧
    (∀ key w, ∃ r, t.Add key w = some r) := by
  have hdep := reachable_depth h
  have hinv := reachable_inv h
  refine ⟨?_, ?_, ?_, ?_, ?_, ?_, ?_⟩
  · intro p nw child hn
    have := (nodeAt_depth p t.root 0 hdep).1 nw child hn
    omega
  · intro p k w hn
    have := (nodeAt_depth p t.root 0 hdep).2 k w hn
    omega
  · intro key
    exact containsLevels_le key t.root 0 hdep
  · intro key
    exact removeLevels_le key t.root 0 hdep
  · intro key w l hl
    unfold AddLevels at hl
    by_cases hw : w = 0
    · rw [if_pos hw] at hl
      simp at hl
    · rw [if_neg hw] at hl
      by_cases hc : t.Contains key = true
      · rw [if_pos hc] at hl
        exact containsLevels_le key t.root 0 hdep l hl
      · rw [if_neg hc, List.mem_append] at hl
        rcases hl with h1 | h1
        · exact containsLevels_le key t.root 0 hdep l h1
        · have hc' : ContainsLoop key 0 t.root = false := by
            simpa [WeightedTrie.Contains] using hc
          exact (addLoop_depth key w _ 0 _ hinv hdep
            (fun _ _ j hj => absurd hj (Nat.not_lt_zero j)) hc' (by omega)).1 l h1
  · intro key l hl
    refine ⟨?_, select_eq_nibble key l (by omega)⟩
    simp only [WTRIE_LOGLOG_CHILDREN, uint256.size, Nat.shiftRight_eq_div_pow]
    omega
  · intro key w
    obtain ⟨t', ht'⟩ := Add_result t key w
    exact ⟨_, ht'⟩

theorem C15_depth_bound_witness :
    nodeAt sampleAD.root [0, 1] = leaf keyD 5 ∧
    AddLevels sampleA keyD 5 = [0, 0, 1, 1] ∧
    ((∀ p nw child, nodeAt sampleAD.root p = nonLeaf nw child → p.length ≤ 63) ∧
    (∀ p k w, nodeAt sampleAD.root p = leaf k w → p.length ≤ 64) ∧
    (∀ key, ∀ l ∈ ContainsLevels key 0 sampleAD.root, l ≤ 63) ∧
    (∀ key, ∀ l ∈ RemoveLevels key 0 sampleAD.root, l ≤ 63) ∧
    (∀ key w, ∀ l ∈ AddLevels sampleAD key w, l ≤ 63) ∧
    (∀ (key : uint256) (l : Nat), l ≤ 63 →
      (l >>> (3 - WTRIE_LOGLOG_CHILDREN)) % key.size = l >>> (3 - WTRIE_LOGLOG_CHILDREN) ∧
      (SelectChildFromKey key l).val = nibble key l) ∧
    (∀ key w, ∃ r, sampleAD.Add key w = some r)) :=
  ⟨by rfl, by decide,
    C15_depth_bound sampleAD (reachableExact_reachable sampleAD_reachableExact)⟩
/-! ## The scan of `GetByCumulativeWeight` on exact sums -/

/-- A trie that satisfies the invariant and whose exact leaf total fits in 64
bits carries exact sums in all its non-leaf nodes. -/
theorem sumExact_of_inv : ∀ (node : WeightedTrieNode) (level : Nat), TrieInv level node →
    node.leafTotal < UINT64 → SumExact node := by
  intro node
  induction node with
  | null => intro _ _ _; trivial
  | leaf k w => intro _ _ _; trivial
  | nonLeaf nw child ih =>
    intro level hinv hlt
    have hw := weight_eq_leafTotal hinv hlt
    simp only [WeightedTrieNode.weight, WeightedTrieNode.leafTotal] at hw
    have hc : ∀ i, (child i).leafTotal < UINT64 := fun i =>
      lt_of_le_of_lt (child_leafTotal_le nw child i) hlt
    refine ⟨?_, fun i => ih i (level + 1) (hinv.2.2.2 i).1 (hc i)⟩
    rw [hw]
    apply Finset.sum_congr rfl
    intro i _
    exact (weight_eq_leafTotal (hinv.2.2.2 i).1 (hc i)).symm

theorem scanLoop_exact (child : Fin 16 → WeightedTrieNode) (offset : Nat) :
    ∀ (slots : List (Fin 16)) (cur : Nat), cur ≤ offset →
      offset < cur + (slots.map (fun i => (child i).weight)).sum →
      cur + (slots.map (fun i => (child i).weight)).sum < UINT64 →
      ∃ i cur', scanLoop child offset slots cur = (some i, cur') ∧ child i ≠ null ∧
        cur' ≤ offset ∧ offset < cur' + (child i).weight ∧
        cur' + (child i).weight < UINT64 := by
  intro slots
  induction slots with
  | nil =>
    intro cur h1 h2 _
    simp at h2
    omega
  | cons i rest ih =>
    intro cur h1 h2 h3
    simp only [List.map_cons, List.sum_cons] at h2 h3
    by_cases hnull : child i = null
    · rw [scanLoop_null _ _ _ _ _ hnull]
      have hz : (child i).weight = 0 := by rw [hnull]; rfl
      rw [hz] at h2 h3
      exact ih cur h1 (by omega) (by omega)
    · rw [scanLoop_present _ _ _ _ _ hnull]
      have hmod : (cur + (child i).weight) % UINT64 = cur + (child i).weight :=
        Nat.mod_eq_of_lt (by omega)
      rw [hmod]
      by_cases hlt : offset < cur + (child i).weight
      · rw [if_pos hlt]
        exact ⟨i, cur, rfl, hnull, h1, hlt, by omega⟩
      · rw [if_neg hlt]
        exact ih (cur + (child i).weight) (by omega) (by omega) (by omega)

theorem scanLoop_exact_node (nw : Nat) (child : Fin 16 → WeightedTrieNode) (offset cur : Nat)
    (hsum : SumExact (nonLeaf nw child)) (h1 : cur ≤ offset) (h2 : offset < cur + nw)
    (h3 : cur + nw < UINT64) :
    ∃ i cur', scanLoop child offset (List.finRange 16) cur = (some i, cur') ∧ child i ≠ null ∧
      cur' ≤ offset ∧ offset < cur' + (child i).weight ∧
      cur' + (child i).weight < UINT64 := by
  have hs : nw = ((List.finRange 16).map (fun i => (child i).weight)).sum := by
    rw [hsum.1, Fin.sum_univ_def]
  rw [hs] at h2 h3
  exact scanLoop_exact child offset (List.finRange 16) cur h1 h2 h3

theorem getLoop_exact (offset : Nat) : ∀ (fuel : Nat) (node : WeightedTrieNode) (cur : Nat),
    SumExact node → node.height < fuel → cur ≤ offset → offset < cur + node.weight →
    cur + node.weight < UINT64 → ∃ k, GetLoop offset fuel node cur = some k := by
  intro fuel
  induction fuel with
  | zero => intro node cur _ h; omega
  | succ fuel ih =>
    intro node cur hsum hh h1 h2 h3
    cases node with
    | null => simp [WeightedTrieNode.weight] at h2; omega
    | leaf k w => exact ⟨k, by simp [GetLoop]⟩
    | nonLeaf nw child =>
      simp only [WeightedTrieNode.weight] at h2 h3
      obtain ⟨i, cur', e1, _, e3, e4, e5⟩ :=
        scanLoop_exact_node nw child offset cur hsum h1 h2 h3
      have hlt := height_child_lt nw child i
      obtain ⟨k, hk⟩ := ih (child i) cur' (hsum.2 i) (by omega) e3 e4 e5
      exact ⟨k, by simp only [GetLoop, e1]; exact hk⟩

theorem visited_inv (offset : Nat) (root : WeightedTrieNode) (hsum : SumExact root)
    (hlt : root.weight < UINT64) (ho : offset < root.weight) :
    ∀ node cur, Visited offset root node cur →
      SumExact node ∧ cur ≤ offset ∧ offset < cur + node.weight ∧
      cur + node.weight < UINT64 := by
  intro node cur hv
  induction hv with
  | start => exact ⟨hsum, Nat.zero_le _, by omega, by omega⟩
  | descend _ hscan ih =>
    obtain ⟨s1, s2, s3, s4⟩ := ih
    simp only [WeightedTrieNode.weight] at s3 s4
    obtain ⟨i, cur', e1, _, e3, e4, e5⟩ := scanLoop_exact_node _ _ offset _ s1 s2 s3 s4
    rw [e1] at hscan
    simp only [Prod.mk.injEq, Option.some.injEq] at hscan
    obtain ⟨hi, hc⟩ := hscan
    subst hi
    subst hc
    exact ⟨s1.2 i, e3, e4, e5⟩
  | stay _ hscan ih =>
    obtain ⟨s1, s2, s3, s4⟩ := ih
    simp only [WeightedTrieNode.weight] at s3 s4
    obtain ⟨i, cur', e1, _⟩ := scanLoop_exact_node _ _ offset _ s1 s2 s3 s4
    rw [e1] at hscan
    simp at hscan

/-- C14: on every trie whose internal nodes each carry the exact sum of their
children's weights, with a root weight of at most `2^64-1`, and for every
offset below the root weight: at each internal node that the loop of
`GetByCumulativeWeight` visits, the ascending scan of the 16 slots stops at a
present child whose span `[cumulative, cumulative + child.weight)` contains the
offset; the descent returns a leaf's key within `height + 1` iterations (every
level is visited once). -/
theorem C14_scan_finds_child (t : WeightedTrie) (hsum : SumExact t.root)
    (hlt : t.root.weight < UINT64) (offset : Nat) (ho : offset < t.root.weight) :
    (∀ nw child cur, Visited offset t.root (nonLeaf nw child) cur →
      ∃ i cur', scanLoop child offset (List.finRange 16) cur = (some i, cur') ∧
        child i ≠ null ∧ cur' ≤ offset ∧ offset < cur' + (child i).weight) ∧
    (∀ fuel, t.root.height < fuel →
      ∃ k, t.GetByCumulativeWeight fuel offset = some (some k)) := by
  refine ⟨?_, ?_⟩
  · intro nw child cur hv
    obtain ⟨s1, s2, s3, s4⟩ := visited_inv offset t.root hsum hlt ho _ _ hv
    simp only [WeightedTrieNode.weight] at s3 s4
    obtain ⟨i, cur', e1, e2, e3, e4, _⟩ := scanLoop_exact_node nw child offset cur s1 s2 s3 s4
    exact ⟨i, cur', e1, e2, e3, e4⟩
  · intro fuel hf
    obtain ⟨k, hk⟩ := getLoop_exact offset fuel t.root 0 hsum hf (Nat.zero_le _)
      (by omega) (by omega)
    refine ⟨k, ?_⟩
    obtain ⟨root⟩ := t
    simp only at hk ho
    cases root with
    | null => simp [WeightedTrieNode.weight] at ho
    | leaf lk lw =>
      simp only [WeightedTrie.GetByCumulativeWeight]
      rw [if_neg (by omega), hk]
      rfl
    | nonLeaf nw child =>
      simp only [WeightedTrie.GetByCumulativeWeight]
      rw [if_neg (by omega), hk]
      rfl

theorem C14_scan_finds_child_witness :
    (∀ nw child cur, Visited 111 sampleABC.root (nonLeaf nw child) cur →
      ∃ i cur', scanLoop child 111 (List.finRange 16) cur = (some i, cur') ∧
        child i ≠ null ∧ cur' ≤ 111 ∧ 111 < cur' + (child i).weight) ∧
    (∀ fuel, sampleABC.root.height < fuel →
      ∃ k, sampleABC.GetByCumulativeWeight fuel 111 = some (some k)) :=
  C14_scan_finds_child sampleABC
    (sumExact_of_inv _ 0 (reachableExact_inv sampleABC_reachableExact)
      (reachableExact_total_lt sampleABC_reachableExact))
    (by decide) 111 (by decide)
/-! ## Collision chain -/

theorem addLoop_collision (k1 : uint256) (w1 : Nat) (k2 : uint256) (w2 : Nat)
    (hsum : w1 + w2 < UINT64) :
    ∀ (m level fuel : Nat),
      (∀ j, j < m → SelectChildFromKey k1 (level + j) = SelectChildFromKey k2 (level + j)) →
      SelectChildFromKey k1 (level + m) ≠ SelectChildFromKey k2 (level + m) → m + 2 ≤ fuel →
      AddLoop k2 w2 fuel level (leaf k1 w1) = some (collisionChain k1 w1 k2 w2 m level) := by
  have hmod : (w1 + w2) % UINT64 = w1 + w2 := Nat.mod_eq_of_lt hsum
  intro m
  induction m with
  | zero =>
    intro level fuel _ hne hf
    obtain ⟨f, rfl⟩ : ∃ f, fuel = f + 1 := ⟨fuel - 1, by omega⟩
    have hne' : SelectChildFromKey k2 level ≠ SelectChildFromKey k1 level := fun h => hne h.symm
    simp only [AddLoop, collisionChain, hmod]
    rw [Function.update_noteq hne']
    simp [emptyChildren, AddLoop]
  | succ m ih =>
    intro level fuel hag hne hf
    obtain ⟨f, rfl⟩ : ∃ f, fuel = f + 1 := ⟨fuel - 1, by omega⟩
    have hs : SelectChildFromKey k2 level = SelectChildFromKey k1 level := (hag 0 (by omega)).symm
    have hrec := ih (level + 1) f
      (by
        intro j hj
        have := hag (j + 1) (by omega)
        have e : level + 1 + j = level + (j + 1) := by omega
        rw [e]; exact this)
      (by
        have e : level + 1 + m = level + (m + 1) := by omega
        rw [e]; exact hne)
      (by omega)
    simp only [AddLoop, collisionChain, hmod]
    rw [hs, Function.update_same, hrec]
    simp only [Option.map_some', Function.update_idem]

theorem collisionChain_ne_null (k1 : uint256) (w1 : Nat) (k2 : uint256) (w2 m level : Nat) :
    collisionChain k1 w1 k2 w2 m level ≠ null := by
  cases m <;> simp [collisionChain]

/-- The nodes of a collision chain along the path of the first key. -/
theorem collisionChain_nodeAt (k1 : uint256) (w1 : Nat) (k2 : uint256) (w2 : Nat) :
    ∀ (m level d : Nat), d ≤ m →
      SelectChildFromKey k1 (level + m) ≠ SelectChildFromKey k2 (level + m) →
      ∃ child, nodeAt (collisionChain k1 w1 k2 w2 m level)
          ((List.range d).map (fun j => SelectChildFromKey k1 (level + j)))
          = nonLeaf (w1 + w2) child ∧
        (d < m → ∀ i, child i ≠ null ↔ i = SelectChildFromKey k1 (level + d)) ∧
        (d = m → child (SelectChildFromKey k1 (level + m)) = leaf k1 w1 ∧
          child (SelectChildFromKey k2 (level + m)) = leaf k2 w2 ∧
          ∀ i, i ≠ SelectChildFromKey k1 (level + m) → i ≠ SelectChildFromKey k2 (level + m) →
            child i = null) := by
  intro m
  induction m with
  | zero =>
    intro level d hd hne
    have hd0 : d = 0 := by omega
    subst hd0
    refine ⟨_, rfl, by omega, ?_⟩
    intro _
    simp only [Nat.add_zero] at hne ⊢
    refine ⟨?_, ?_, ?_⟩
    · rw [Function.update_noteq hne, Function.update_same]
    · rw [Function.update_same]
    · intro i h1 h2
      rw [Function.update_noteq h2, Function.update_noteq h1]
      rfl
  | succ m ih =>
    intro level d hd hne
    cases d with
    | zero =>
      refine ⟨_, rfl, ?_, by omega⟩
      intro _ i
      simp only [Nat.add_zero]
      constructor
      · intro hi
        by_contra hne'
        rw [Function.update_noteq hne'] at hi
        exact hi rfl
      · intro hi
        rw [hi, Function.update_same]
        exact collisionChain_ne_null k1 w1 k2 w2 m (level + 1)
    | succ d =>
      have hne' : SelectChildFromKey k1 (level + 1 + m) ≠ SelectChildFromKey k2 (level + 1 + m) := by
        have e : level + 1 + m = level + (m + 1) := by omega
        rw [e]; exact hne
      obtain ⟨child, c1, c2, c3⟩ := ih (level + 1) d (by omega) hne'
      refine ⟨child, ?_, ?_, ?_⟩
      · rw [List.range_succ_eq_map, List.map_cons, List.map_map]
        simp only [collisionChain, nodeAt, Nat.add_zero, Function.update_same]
        rw [← c1]
        congr 1
        apply List.map_congr_left
        intro j _
        simp only [Function.comp_apply]
        congr 1
        omega
      · intro hlt i
        have e : level + (d + 1) = level + 1 + d := by omega
        rw [e]
        exact c2 (by omega) i
      · intro heq
        have e : level + (m + 1) = level + 1 + m := by omega
        rw [e]
        exact c3 (by omega)

/-- C16: for two keys whose nibble sequences agree on exactly the first `m`
nibbles (`m <= 63`) and weights `w1, w2 >= 1` with `w1 + w2 <= 2^64-1`,
`Add(k1, w1)` then `Add(k2, w2)` on the empty trie both return true and yield a
chain of `m + 1` internal nodes along the path of `k1` at depths `0..m`, each of
weight `w1 + w2`; each of the first `m` has exactly one present child, the
deepest holds the two leaves in two different slots and nothing else; both keys
are found by `Contains` and the root weight is `w1 + w2`. -/
theorem C16_collision_chain (k1 k2 : uint256) (w1 w2 m : Nat) (hm : m ≤ 63)
    (hagree : ∀ j, j < m → nibble k1 j = nibble k2 j) (hdiff : nibble k1 m ≠ nibble k2 m)
    (hw1 : 1 ≤ w1) (hw2 : 1 ≤ w2) (hsum : w1 + w2 < UINT64) :
    ∃ t2, WeightedTrie.empty.Add k1 w1 = some (⟨leaf k1 w1⟩, true) ∧
      (WeightedTrie.mk (leaf k1 w1)).Add k2 w2 = some (t2, true) ∧
      t2.root = collisionChain k1 w1 k2 w2 m 0 ∧
      (∀ d, d ≤ m → ∃ child,
        nodeAt t2.root ((List.range d).map (SelectChildFromKey k1)) = nonLeaf (w1 + w2) child ∧
        (d < m → ∀ i, child i ≠ null ↔ i = SelectChildFromKey k1 d) ∧
        (d = m → child (SelectChildFromKey k1 m) = leaf k1 w1 ∧
          child (SelectChildFromKey k2 m) = leaf k2 w2 ∧
          SelectChildFromKey k1 m ≠ SelectChildFromKey k2 m ∧
          ∀ i, i ≠ SelectChildFromKey k1 m → i ≠ SelectChildFromKey k2 m → child i = null)) ∧
      t2.Contains k1 = true ∧ t2.Contains k2 = true ∧ t2.root.weight = w1 + w2 := by
  have hsel : ∀ j, j < m → SelectChildFromKey k1 (0 + j) = SelectChildFromKey k2 (0 + j) := by
    intro j hj
    apply Fin.ext
    rw [Nat.zero_add, select_eq_nibble k1 j (by omega), select_eq_nibble k2 j (by omega)]
    exact hagree j hj
  have hne : SelectChildFromKey k1 (0 + m) ≠ SelectChildFromKey k2 (0 + m) := by
    intro h
    apply hdiff
    have := congrArg Fin.val h
    rw [Nat.zero_add, select_eq_nibble k1 m (by omega), select_eq_nibble k2 m (by omega)] at this
    exact this
  have hk : k2 ≠ k1 := by
    intro h
    apply hdiff
    rw [h]
  have hw0 : w1 ≠ 0 := by omega
  have hfirst : WeightedTrie.empty.Add k1 w1 = some (⟨leaf k1 w1⟩, true) := by
    simp [WeightedTrie.Add, WeightedTrie.empty, WeightedTrie.Contains, ContainsLoop, AddLoop, hw0]
  have hinv1 : TrieInv 0 (WeightedTrie.mk (leaf k1 w1)).root := ⟨hw1, by omega⟩
  have hc : (WeightedTrie.mk (leaf k1 w1)).Contains k2 = false := by
    simp [WeightedTrie.Contains, ContainsLoop, hk]
  obtain ⟨t2, ht2⟩ := Add_result (WeightedTrie.mk (leaf k1 w1)) k2 w2
  have hflag : decide (w2 ≠ 0 ∧ (WeightedTrie.mk (leaf k1 w1)).Contains k2 = false) = true := by
    simp [hc]; omega
  rw [hflag] at ht2
  obtain ⟨a1, a2, _, _, a5⟩ := Add_true_spec hinv1 (by omega) ht2
  have hroot : t2.root = collisionChain k1 w1 k2 w2 m 0 := by
    rcases Add_cases ht2 with ⟨hb, _⟩ | ⟨_, _, _, hl⟩
    · exact absurd hb (by simp)
    · have hcol := addLoop_collision k1 w1 k2 w2 hsum m 0
        ((WeightedTrie.mk (leaf k1 w1)).root.height + 65) hsel hne
        (by simp only [WeightedTrieNode.height]; omega)
      simp only at hl hcol
      rw [hcol] at hl
      exact (Option.some.inj hl).symm
  refine ⟨t2, hfirst, ht2, hroot, ?_, ?_, ?_, ?_⟩
  · intro d hd
    obtain ⟨child, c1, c2, c3⟩ := collisionChain_nodeAt k1 w1 k2 w2 m 0 d hd hne
    simp only [Nat.zero_add] at c1 c2 c3 hne
    refine ⟨child, by rw [hroot]; exact c1, c2, ?_⟩
    intro hdm
    obtain ⟨x1, x2, x3⟩ := c3 hdm
    exact ⟨x1, x2, hne, x3⟩
  · exact (Contains_iff a1 k1).mpr ⟨w1, (a5 _).mpr (Or.inr (by simp [WeightedTrieNode.entries]))⟩
  · exact (Contains_iff a1 k2).mpr ⟨w2, (a5 _).mpr (Or.inl rfl)⟩
  · rw [a2]
    simp only [WeightedTrieNode.weight]
    exact Nat.mod_eq_of_lt hsum

theorem C16_collision_chain_witness :
    ∃ t2, WeightedTrie.empty.Add keyA 10 = some (⟨leaf keyA 10⟩, true) ∧
      (WeightedTrie.mk (leaf keyA 10)).Add keyD 5 = some (t2, true) ∧
      t2.root = collisionChain keyA 10 keyD 5 1 0 ∧
      (∀ d, d ≤ 1 → ∃ child,
        nodeAt t2.root ((List.range d).map (SelectChildFromKey keyA)) = nonLeaf (10 + 5) child ∧
        (d < 1 → ∀ i, child i ≠ null ↔ i = SelectChildFromKey keyA d) ∧
        (d = 1 → child (SelectChildFromKey keyA 1) = leaf keyA 10 ∧
          child (SelectChildFromKey keyD 1) = leaf keyD 5 ∧
          SelectChildFromKey keyA 1 ≠ SelectChildFromKey keyD 1 ∧
          ∀ i, i ≠ SelectChildFromKey keyA 1 → i ≠ SelectChildFromKey keyD 1 →
            child i = null)) ∧
      t2.Contains keyA = true ∧ t2.Contains keyD = true ∧ t2.root.weight = 10 + 5 :=
  C16_collision_chain keyA keyD 10 5 1 (by decide) (by decide) (by decide) (by decide)
    (by decide) (by decide)

end Wtrie
